import Mathlib

/-!
Verification of the InsightEase behavioral-analytics core (funnel analysis,
path analysis, multi-touch attribution, frequent-sequence mining) against its
natural-language specification.

The Python services are shallowly embedded:
* `float` arithmetic is idealized as exact rational arithmetic (`ℚ`); the one
  transcendental computation (`math.exp` in time-decay attribution) is
  idealized over the reals (`ℝ`).
* Python's `round` (round-half-to-even) is `pyRound`, `int()` truncation is
  `pyInt`.
* `dict` / `collections.Counter` / `defaultdict` accumulators are embedded as
  insertion-ordered association lists (`upsert`, `appendVal`), matching
  Python's insertion-ordered dict semantics.
* Python's stable sorts (`list.sort`, `sorted`) are embedded as a stable
  insertion sort `stableSort`.  `pandas.sort_values` uses an unstable
  quicksort; it is modelled by the same stable sort (a deterministic
  representative; on distinct keys every comparison sort agrees).
* dataframe cells are `Cell` (a string or a number); timestamps are numeric
  cells, with the unit (hours or days) fixed by each call site's comment.
-/

namespace InsightEase

/-! ## Python numeric and container primitives -/

/-- Python 3 `round` to an integer: round half to even (banker's rounding). -/
def roundHalfEven {α : Type} [LinearOrderedField α] [FloorRing α] (x : α) : ℤ :=
  if x - (⌊x⌋ : α) < 1/2 then ⌊x⌋
  else if (1:α)/2 < x - (⌊x⌋ : α) then ⌊x⌋ + 1
  else if ⌊x⌋ % 2 = 0 then ⌊x⌋ else ⌊x⌋ + 1

/-- Python `round(x, d)`: round half to even at `d` decimal places. -/
def pyRound {α : Type} [LinearOrderedField α] [FloorRing α] (d : ℕ) (x : α) : α :=
  (roundHalfEven (x * (10:α)^d) : α) / (10:α)^d

/-- Python `int(x)`: truncation toward zero. -/
def pyInt (x : ℚ) : ℤ :=
  if 0 ≤ x then ⌊x⌋ else ⌈x⌉

/-- Stable insertion of `x` into `l`: `x` goes before the first element `y`
with `le x y`.  Used to embed Python's stable sorts. -/
def insertStable {α : Type} (le : α → α → Bool) (x : α) : List α → List α
  | [] => [x]
  | y :: ys => if le x y then x :: y :: ys else y :: insertStable le x ys

/-- Stable sort (insertion sort).  With `le a b = (key a ≤ key b)` this
reproduces Python's stable ascending `sorted`; with
`le a b = (key b ≤ key a)` it reproduces `sorted(..., reverse=True)`. -/
def stableSort {α : Type} (le : α → α → Bool) (l : List α) : List α :=
  l.foldr (insertStable le) []

theorem insertStable_perm {α : Type} (le : α → α → Bool) (x : α) (l : List α) :
    List.Perm (insertStable le x l) (x :: l) := by
  induction l with
  | nil => simp [insertStable]
  | cons y ys ih =>
      simp only [insertStable]
      split
      · exact List.Perm.refl _
      · exact (List.Perm.cons y ih).trans (List.Perm.swap x y ys)

theorem stableSort_perm {α : Type} (le : α → α → Bool) (l : List α) :
    List.Perm (stableSort le l) l := by
  induction l with
  | nil => simp [stableSort]
  | cons x xs ih =>
      simpa [stableSort] using (insertStable_perm le x _).trans (List.Perm.cons x ih)

theorem mem_stableSort {α : Type} {le : α → α → Bool} {l : List α} {x : α} :
    x ∈ stableSort le l ↔ x ∈ l :=
  (stableSort_perm le l).mem_iff

/-- Insertion-ordered association list update, embedding
`defaultdict(float)`-style `d[k] += v` / `Counter`-style `c[k] += n`:
the first entry with key `k` is incremented, otherwise `(k, v)` is appended. -/
def upsert {κ α : Type} [DecidableEq κ] [Add α] :
    List (κ × α) → κ → α → List (κ × α)
  | [], k, v => [(k, v)]
  | (k', v') :: rest, k, v =>
      if k' = k then (k', v' + v) :: rest else (k', v') :: upsert rest k v

/-- Sum of the values of an association list. -/
def sumValues {κ α : Type} [AddCommMonoid α] (l : List (κ × α)) : α :=
  (l.map Prod.snd).sum

theorem sumValues_nil {κ α : Type} [AddCommMonoid α] :
    sumValues ([] : List (κ × α)) = 0 := rfl

theorem sumValues_upsert {κ α : Type} [DecidableEq κ] [AddCommMonoid α]
    (l : List (κ × α)) (k : κ) (v : α) :
    sumValues (upsert l k v) = sumValues l + v := by
  induction l with
  | nil => simp [upsert, sumValues]
  | cons p rest ih =>
      obtain ⟨k', v'⟩ := p
      by_cases h : k' = k
      · simp [upsert, h, sumValues, add_assoc, add_comm v]
      · simp only [upsert, if_neg h]
        simp [sumValues] at ih ⊢
        rw [ih, add_assoc]

/-- Insertion-ordered `defaultdict(list)`-style `d[k].append(v)`. -/
def appendVal {κ α : Type} [DecidableEq κ] :
    List (κ × List α) → κ → α → List (κ × List α)
  | [], k, v => [(k, [v])]
  | (k', vs) :: rest, k, v =>
      if k' = k then (k', vs ++ [v]) :: rest else (k', vs) :: appendVal rest k v

/-- Total of all list entries of an `appendVal`-style accumulator. -/
def sumAllVals {κ : Type} (l : List (κ × List ℚ)) : ℚ :=
  (l.map (fun p => p.2.sum)).sum

theorem sumAllVals_appendVal {κ : Type} [DecidableEq κ]
    (l : List (κ × List ℚ)) (k : κ) (v : ℚ) :
    sumAllVals (appendVal l k v) = sumAllVals l + v := by
  induction l with
  | nil => simp [appendVal, sumAllVals]
  | cons p rest ih =>
      obtain ⟨k', vs⟩ := p
      by_cases h : k' = k
      · simp [appendVal, h, sumAllVals, add_assoc, add_comm v]
      · simp only [appendVal, if_neg h]
        simp [sumAllVals] at ih ⊢
        rw [ih]
        ring

/-- First-occurrence deduplication, embedding the insertion order of a Python
`dict`/`Counter` built by repeated insertion. -/
def dedupFirst {α : Type} [DecidableEq α] : List α → List α
  | [] => []
  | a :: l => a :: (dedupFirst l).filter (fun b => b ≠ a)

/-- Python `list.index` as an `Option`: index of the first occurrence. -/
def pyIndex? {α : Type} [DecidableEq α] (l : List α) (x : α) : Option ℕ :=
  match l with
  | [] => none
  | a :: rest => if a = x then some 0 else (pyIndex? rest x).map (· + 1)

theorem pyIndex?_isSome_of_mem {α : Type} [DecidableEq α] {l : List α} {x : α}
    (h : x ∈ l) : ∃ n, pyIndex? l x = some n := by
  induction l with
  | nil => cases h
  | cons a rest ih =>
      by_cases hax : a = x
      · exact ⟨0, by simp [pyIndex?, hax]⟩
      · have hx : x ∈ rest := by
          cases List.mem_cons.mp h with
          | inl h0 => exact absurd h0.symm hax
          | inr h0 => exact h0
        obtain ⟨n, hn⟩ := ih hx
        exact ⟨n + 1, by simp [pyIndex?, hax, hn]⟩

theorem pyIndex?_get {α : Type} [DecidableEq α] {l : List α} {x : α} {n : ℕ}
    (h : pyIndex? l x = some n) : l.get? n = some x := by
  induction l generalizing n with
  | nil => simp [pyIndex?] at h
  | cons a rest ih =>
      by_cases hax : a = x
      · simp [pyIndex?, hax] at h
        subst h
        simp [hax]
      · simp [pyIndex?, hax] at h
        obtain ⟨m, hm, hmn⟩ := h
        subst hmn
        simpa using ih hm

theorem pyIndex?_eq_none_of_not_mem {α : Type} [DecidableEq α] {l : List α}
    {x : α} (h : x ∉ l) : pyIndex? l x = none := by
  induction l with
  | nil => rfl
  | cons a rest ih =>
      have hax : a ≠ x := fun he => h (he ▸ List.mem_cons_self a rest)
      have hx : x ∉ rest := fun hm => h (List.mem_cons_of_mem a hm)
      simp [pyIndex?, hax, ih hx]

/-! ## Rounding error bounds -/

theorem roundHalfEven_err {α : Type} [LinearOrderedField α] [FloorRing α]
    (x : α) : |((roundHalfEven x : ℤ) : α) - x| ≤ 1/2 := by
  have hfl : ((⌊x⌋ : ℤ) : α) ≤ x := Int.floor_le x
  have hfu : x < (⌊x⌋ : ℤ) + 1 := Int.lt_floor_add_one x
  unfold roundHalfEven
  by_cases h1 : x - (⌊x⌋ : α) < 1/2
  · rw [if_pos h1, abs_sub_comm, abs_of_nonneg (by linarith)]
    linarith
  · rw [if_neg h1]
    by_cases h2 : (1:α)/2 < x - (⌊x⌋ : α)
    · rw [if_pos h2]
      push_cast
      rw [abs_of_nonneg (by linarith)]
      linarith
    · have heq : x - (⌊x⌋ : α) = 1/2 := le_antisymm (not_lt.mp h2) (not_lt.mp h1)
      rw [if_neg h2]
      by_cases h3 : ⌊x⌋ % 2 = 0
      · rw [if_pos h3, abs_sub_comm, abs_of_nonneg (by linarith)]
        linarith
      · rw [if_neg h3]
        push_cast
        rw [abs_of_nonneg (by linarith)]
        linarith

theorem pyRound_err {α : Type} [LinearOrderedField α] [FloorRing α]
    (d : ℕ) (x : α) : |pyRound d x - x| ≤ 1 / (2 * (10:α)^d) := by
  have hp : (0:α) < (10:α)^d := by positivity
  have h := roundHalfEven_err (x * (10:α)^d)
  unfold pyRound
  have hrw : (roundHalfEven (x * (10:α)^d) : α) / (10:α)^d - x
      = ((roundHalfEven (x * (10:α)^d) : α) - x * (10:α)^d) / (10:α)^d := by
    field_simp
    ring
  rw [hrw, abs_div, abs_of_pos hp, div_le_div_iff₀ hp (by positivity)]
  nlinarith [mul_le_mul_of_nonneg_right h (show (0:α) ≤ 2 * (10:α)^d by positivity)]

/-- An integer survives `pyRound` unchanged. -/
theorem pyRound_intCast {α : Type} [LinearOrderedField α] [FloorRing α]
    (d : ℕ) (n : ℤ) : pyRound d ((n : ℤ) : α) = n := by
  have hp : ((10:α))^d ≠ 0 := by positivity
  unfold pyRound roundHalfEven
  have hz : ((n : α)) * (10:α)^d = ((n * 10^d : ℤ) : α) := by push_cast; ring
  rw [hz, Int.floor_intCast, sub_self, if_pos (by norm_num : (0:α) < 1/2)]
  field_simp

/-- Termwise approximation bound for list sums. -/
theorem sum_map_approx {α β : Type} [LinearOrderedField α]
    (f g : β → α) (ε : α) :
    ∀ l : List β, (∀ x ∈ l, |f x - g x| ≤ ε) →
      |(l.map f).sum - (l.map g).sum| ≤ l.length * ε := by
  intro l
  induction l with
  | nil => intro _; simp
  | cons a l ih =>
      intro h
      have ha := h a (List.mem_cons_self a l)
      have hl := ih (fun x hx => h x (List.mem_cons_of_mem a hx))
      simp only [List.map_cons, List.sum_cons, List.length_cons]
      have : f a + (l.map f).sum - (g a + (l.map g).sum)
          = (f a - g a) + ((l.map f).sum - (l.map g).sum) := by ring
      rw [this]
      calc |(f a - g a) + ((l.map f).sum - (l.map g).sum)|
          ≤ |f a - g a| + |(l.map f).sum - (l.map g).sum| := abs_add _ _
        _ ≤ ε + l.length * ε := add_le_add ha hl
        _ = ((l.length + 1 : ℕ) : α) * ε := by push_cast; ring

/-! ## Dataframe model

The services receive a pandas `DataFrame`; it is modelled as a rectangular
table of `Cell`s (a cell is a string or an exact number).  Timestamp columns
hold numeric cells; `pd.to_datetime` and subsequent datetime arithmetic are
modelled as the identity on those numbers (the time unit — hours or days —
is fixed at each call site to match the service's own conversion factor). -/

inductive Cell : Type
  | str (s : String)
  | num (q : ℚ)
deriving DecidableEq

/-- Total order on cells, used where pandas compares values during sorting.
The verified scenarios never compare a string with a number; numbers are
placed before strings only to make the order total. -/
def Cell.le : Cell → Cell → Bool
  | .num a, .num b => a ≤ b
  | .str a, .str b => a.data ≤ b.data
  | .num _, .str _ => true
  | .str _, .num _ => false

/-- Numeric view of a cell (used for timestamp columns). -/
def Cell.asNum : Cell → ℚ
  | .num q => q
  | .str _ => 0

/-- Python truthiness of a cell value (`bool(x)`). -/
def Cell.truthy : Cell → Bool
  | .num q => q ≠ 0
  | .str s => s ≠ ""

/-- Python `float(x)` on a cell.  A non-numeric string would raise in Python;
that case is not exercised by any verified scenario and is mapped to `0`. -/
def Cell.asFloat : Cell → ℚ
  | .num q => q
  | .str _ => 0

/-- Errors raised by the services.  `keyError col` is what pandas raises when
column `col` is accessed but absent.  `missingColumnError` is *modelled from
the spec*: the spec's §7 error taxonomy names a `MissingColumnError` carrying
the missing column's name, but no such class exists anywhere in the source,
and no source embedding below ever produces this constructor — it exists only
so that the spec's claim about it can be stated against the code's actual
behavior. -/
inductive PyError : Type
  | keyError (col : String)
  | missingColumnError (col : String)
deriving DecidableEq

structure DataFrame : Type where
  cols : List String
  rows : List (List Cell)
deriving DecidableEq

/-- Value of row `r` at column position `i`. -/
def cellAt (r : List Cell) (i : ℕ) : Cell := r.getD i (Cell.str "")

/-- `df[c]`: the column's cells, or `KeyError(c)` when the column is absent. -/
def getCol (df : DataFrame) (c : String) : Except PyError (List Cell) :=
  match pyIndex? df.cols c with
  | none => .error (.keyError c)
  | some i => .ok (df.rows.map (fun r => cellAt r i))

/-- `df.sort_values(c)`: rows ordered by column `c` (stable model, cf. the
header comment). -/
def sortRowsBy1 (df : DataFrame) (c : String) : DataFrame :=
  let i := (pyIndex? df.cols c).getD 0
  ⟨df.cols, stableSort (fun r r' => Cell.le (cellAt r i) (cellAt r' i)) df.rows⟩

/-- `df.sort_values([c1, c2])`: rows ordered lexicographically by the two key
columns (stable model, cf. the header comment). -/
def sortRowsBy2 (df : DataFrame) (c1 c2 : String) : DataFrame :=
  let i1 := (pyIndex? df.cols c1).getD 0
  let i2 := (pyIndex? df.cols c2).getD 0
  ⟨df.cols, stableSort
    (fun r r' =>
      if cellAt r i1 = cellAt r' i1
      then Cell.le (cellAt r i2) (cellAt r' i2)
      else Cell.le (cellAt r i1) (cellAt r' i1))
    df.rows⟩

/-- The group keys of `df.groupby` on column position `i`: pandas iterates the
groups with keys in ascending order. -/
def groupKeys (df : DataFrame) (i : ℕ) : List Cell :=
  stableSort Cell.le (dedupFirst (df.rows.map (fun r => cellAt r i)))

/-- The rows of one `groupby` group, in dataframe order. -/
def groupRows (df : DataFrame) (i : ℕ) (k : Cell) : List (List Cell) :=
  df.rows.filter (fun r => cellAt r i = k)

/-! ## Attribution service (`attribution_service.py`)

`AttributionService` builds per-user journeys and distributes each converted
journey's conversion value over its touchpoints under six models, then
normalizes each model's result into `{value (rounded to 4 places),
percentage of total (rounded to 2 places)}` sorted by descending value. -/

/-- A user journey as built by `_build_user_journeys` (the derived
`touchpoint_count` field is `touchpoints.length` and is not stored).
Timestamps are in days — the unit `_time_decay_attribution` converts to. -/
structure Journey : Type where
  userId : Cell
  touchpoints : List Cell
  timestamps : List ℚ
  converted : Bool
  conversionValue : ℚ
deriving DecidableEq

/-- `_build_user_journeys`: group by user, sort each group by the timestamp
column, read the touchpoint/timestamp sequences, take the conversion flag and
conversion value from the group's last row (defaults: converted, value 1.0),
and keep only journeys with at least one touchpoint.
An `Option String` of `some ""` models a present-but-falsy column name
(Python's `if conversion_col and conversion_col in user_df.columns`). -/
def build_user_journeys (df : DataFrame) (userCol tpCol tsCol : String)
    (convCol convValCol : Option String) : List Journey :=
  let ui := (pyIndex? df.cols userCol).getD 0
  (groupKeys df ui).filterMap (fun uid =>
    let g := sortRowsBy1 ⟨df.cols, groupRows df ui uid⟩ tsCol
    let tpi := (pyIndex? g.cols tpCol).getD 0
    let tsi := (pyIndex? g.cols tsCol).getD 0
    let touchpoints := g.rows.map (fun r => cellAt r tpi)
    let timestamps := g.rows.map (fun r => (cellAt r tsi).asNum)
    let converted : Bool :=
      match convCol with
      | some c =>
          if c ≠ "" ∧ c ∈ g.cols then
            match g.rows.getLast? with
            | some r => (cellAt r ((pyIndex? g.cols c).getD 0)).truthy
            | none => false
          else true
      | none => true
    let convValue : ℚ :=
      match convValCol with
      | some c =>
          if c ≠ "" ∧ c ∈ g.cols then
            match g.rows.getLast? with
            | some r => (cellAt r ((pyIndex? g.cols c).getD 0)).asFloat
            | none => 1
          else 1
      | none => 1
    if touchpoints.isEmpty then none
    else some
      { userId := uid
        touchpoints := touchpoints
        timestamps := timestamps
        converted := converted
        conversionValue := if converted then convValue else 0 })

/-- Crediting every touchpoint of a list with the same value
(`for touchpoint in ...: attribution[touchpoint] += v`). -/
def creditList (acc : List (Cell × ℚ)) (tps : List Cell) (v : ℚ) :
    List (Cell × ℚ) :=
  tps.foldl (fun a t => upsert a t v) acc

/-- `_first_touch_attribution` before normalization. -/
def first_touch_raw (js : List Journey) : List (Cell × ℚ) :=
  js.foldl (fun acc j =>
    if j.converted && !j.touchpoints.isEmpty then
      upsert acc (j.touchpoints.headD (.str "")) j.conversionValue
    else acc) []

/-- `_last_touch_attribution` before normalization. -/
def last_touch_raw (js : List Journey) : List (Cell × ℚ) :=
  js.foldl (fun acc j =>
    if j.converted && !j.touchpoints.isEmpty then
      upsert acc (j.touchpoints.getLastD (.str "")) j.conversionValue
    else acc) []

/-- `_linear_attribution` before normalization. -/
def linear_raw (js : List Journey) : List (Cell × ℚ) :=
  js.foldl (fun acc j =>
    if j.converted && !j.touchpoints.isEmpty then
      creditList acc j.touchpoints (j.conversionValue / j.touchpoints.length)
    else acc) []

/-- `_position_based_attribution` before normalization (40% first, 40% last,
20% split over the interior; the source's float literals 0.4/0.5/0.2 are the
exact rationals here). -/
def position_based_raw (js : List Journey) : List (Cell × ℚ) :=
  js.foldl (fun acc j =>
    if j.converted && !j.touchpoints.isEmpty then
      match j.touchpoints with
      | [] => acc
      | [t] => upsert acc t j.conversionValue
      | [t1, t2] =>
          upsert (upsert acc t1 (j.conversionValue * (1/2))) t2
            (j.conversionValue * (1/2))
      | t1 :: t2 :: t3 :: rest =>
          let tps := t1 :: t2 :: t3 :: rest
          creditList
            (upsert (upsert acc t1 (j.conversionValue * (2/5)))
              (tps.getLastD (.str "")) (j.conversionValue * (2/5)))
            ((tps.drop 1).dropLast)
            (j.conversionValue * (1/5) / ((tps.length : ℚ) - 2))
    else acc) []

/-- `_shapley_attribution`'s `touchpoint_contributions` accumulator: each
journey (truncated to `maxTouchpoints`) appends `conversion_value / n` to the
contribution list of each of its touchpoints. -/
def shapley_contributions (js : List Journey) (maxTouchpoints : ℕ) :
    List (Cell × List ℚ) :=
  js.foldl (fun acc j =>
    if j.converted && !j.touchpoints.isEmpty then
      let tps := j.touchpoints.take maxTouchpoints
      if tps.isEmpty then acc
      else tps.foldl (fun a t => appendVal a t (j.conversionValue / tps.length)) acc
    else acc) []

/-- `_shapley_attribution` before normalization:
`attribution[touchpoint] = sum(contributions)` (note: the *sum*, although the
comment directly above this line in the source reads `# 计算平均贡献`,
i.e. "compute the average contribution"). -/
def shapley_raw (js : List Journey) (maxTouchpoints : ℕ) : List (Cell × ℚ) :=
  (shapley_contributions js maxTouchpoints).map (fun p => (p.1, p.2.sum))

/-- `_time_decay_attribution` before normalization: each touchpoint of a
converted journey is weighted `exp(-λ·days_before)` with
`λ = ln 2 / half_life_days`, weights normalized per journey.  Timestamps are
in days (the source divides second differences by 24·3600). -/
noncomputable def time_decay_raw (js : List Journey) (halfLifeDays : ℚ) :
    List (Cell × ℝ) :=
  js.foldl (fun acc j =>
    if j.converted && !j.touchpoints.isEmpty then
      let convTime := j.timestamps.getLastD 0
      let weights : List ℝ := j.timestamps.map (fun ts =>
        Real.exp (-(Real.log 2 / (halfLifeDays : ℝ)) * ((convTime - ts : ℚ) : ℝ)))
      let totalWeight := weights.sum
      if 0 < totalWeight then
        (j.touchpoints.zip weights).foldl
          (fun a p => upsert a p.1 ((j.conversionValue : ℝ) * (p.2 / totalWeight)))
          acc
      else acc
    else acc) []

/-- `_normalize_attribution`: drop everything when the total is zero,
otherwise return, sorted by descending raw value (Python's stable
`sorted(..., reverse=True)`), each touchpoint with its value rounded to 4
places and its percentage of the total rounded to 2 places. -/
def normalize_attribution {α : Type} [LinearOrderedField α] [FloorRing α]
    (attribution : List (Cell × α)) : List (Cell × α × α) :=
  let total := sumValues attribution
  if total = 0 then []
  else
    (stableSort (fun p q : Cell × α => decide (q.2 ≤ p.2)) attribution).map
      (fun p => (p.1, pyRound 4 p.2, pyRound 2 (p.2 / total * 100)))

def first_touch_attribution (js : List Journey) : List (Cell × ℚ × ℚ) :=
  normalize_attribution (first_touch_raw js)

def last_touch_attribution (js : List Journey) : List (Cell × ℚ × ℚ) :=
  normalize_attribution (last_touch_raw js)

def linear_attribution (js : List Journey) : List (Cell × ℚ × ℚ) :=
  normalize_attribution (linear_raw js)

def position_based_attribution (js : List Journey) : List (Cell × ℚ × ℚ) :=
  normalize_attribution (position_based_raw js)

/-- `attribution_analysis` invokes `_shapley_attribution` with its default
`max_touchpoints=5`. -/
def shapley_attribution (js : List Journey) (maxTouchpoints : ℕ) :
    List (Cell × ℚ × ℚ) :=
  normalize_attribution (shapley_raw js maxTouchpoints)

noncomputable def time_decay_attribution (js : List Journey)
    (halfLifeDays : ℚ) : List (Cell × ℝ × ℝ) :=
  normalize_attribution (time_decay_raw js halfLifeDays)

/-- The sum of the conversion values of the converted journeys (the quantity
the attribution models distribute). -/
def total_conversion_value (js : List Journey) : ℚ :=
  (js.map (fun j => if j.converted then j.conversionValue else 0)).sum

/-- The `conversion_rate` field of `_generate_summary`:
`round(#converted / #journeys * 100, 2)` (0 on an empty journey list). -/
def conversion_rate_summary (js : List Journey) : ℚ :=
  if js.isEmpty then 0
  else pyRound 2 (((js.filter (fun j => j.converted)).length : ℚ) / js.length * 100)


/-! ## Conservation of credited value (attribution) -/

/-- Generic bookkeeping for the per-journey fold of an attribution model:
if each step increases a measure `μ` of the accumulator by `contrib b`,
the fold increases it by the total contribution. -/
theorem foldl_measure {σ β α : Type} [AddCommMonoid α] (μ : σ → α)
    (step : σ → β → σ) (contrib : β → α) :
    ∀ l : List β, (∀ b ∈ l, ∀ s, μ (step s b) = μ s + contrib b) →
      ∀ s, μ (l.foldl step s) = μ s + (l.map contrib).sum := by
  intro l
  induction l with
  | nil => intro _ s; simp
  | cons b l ih =>
      intro h s
      rw [List.foldl_cons, ih (fun x hx => h x (List.mem_cons_of_mem b hx)),
        h b (List.mem_cons_self b l), List.map_cons, List.sum_cons, add_assoc]

/-- Folding `upsert` over a list adds the sum of the inserted values. -/
theorem sumValues_foldl_upsert {κ α β : Type} [DecidableEq κ] [AddCommMonoid α]
    (key : β → κ) (f : β → α) (l : List β) (acc : List (κ × α)) :
    sumValues (l.foldl (fun a b => upsert a (key b) (f b)) acc)
      = sumValues acc + (l.map f).sum := by
  induction l generalizing acc with
  | nil => simp
  | cons b l ih =>
      rw [List.foldl_cons, ih, sumValues_upsert, List.map_cons, List.sum_cons]
      rw [add_assoc, add_comm (f b)]

theorem sumValues_creditList (acc : List (Cell × ℚ)) (tps : List Cell) (v : ℚ) :
    sumValues (creditList acc tps v) = sumValues acc + tps.length * v := by
  have h := sumValues_foldl_upsert (fun t : Cell => t) (fun _ => v) tps acc
  rw [creditList, h]
  congr 1
  induction tps with
  | nil => simp
  | cons t ts ih => simp [ih]; ring

theorem sumAllVals_foldl_appendVal {κ : Type} [DecidableEq κ]
    (w : ℚ) (l : List κ) (acc : List (κ × List ℚ)) :
    sumAllVals (l.foldl (fun a t => appendVal a t w) acc)
      = sumAllVals acc + l.length * w := by
  induction l generalizing acc with
  | nil => simp
  | cons t ts ih =>
      rw [List.foldl_cons, ih, sumAllVals_appendVal, List.length_cons]
      push_cast
      ring

/-- Per-journey conversion value as distributed by every model
(`total_conversion_value` is its total). -/
def convContrib (j : Journey) : ℚ := if j.converted then j.conversionValue else 0

theorem total_conversion_value_eq (js : List Journey) :
    total_conversion_value js = (js.map convContrib).sum := rfl

/-- Well-formedness delivered by `_build_user_journeys`: at least one
touchpoint, and one timestamp per touchpoint. -/
def JourneyWF (j : Journey) : Prop :=
  j.touchpoints ≠ [] ∧ j.timestamps.length = j.touchpoints.length

theorem first_touch_raw_sum (js : List Journey)
    (h : ∀ j ∈ js, j.touchpoints ≠ []) :
    sumValues (first_touch_raw js) = total_conversion_value js := by
  rw [total_conversion_value_eq, first_touch_raw]
  have := foldl_measure (sumValues (κ := Cell) (α := ℚ))
    (fun acc j => if j.converted && !j.touchpoints.isEmpty then
      upsert acc (j.touchpoints.headD (.str "")) j.conversionValue else acc)
    convContrib js ?_ []
  · rwa [sumValues_nil, zero_add] at this
  · intro j hj acc
    obtain ⟨t, ts, hts⟩ := List.exists_cons_of_ne_nil (h j hj)
    cases hc : j.converted with
    | true => simp [hts, hc, sumValues_upsert, convContrib]
    | false => simp [hts, hc, convContrib]

theorem last_touch_raw_sum (js : List Journey)
    (h : ∀ j ∈ js, j.touchpoints ≠ []) :
    sumValues (last_touch_raw js) = total_conversion_value js := by
  rw [total_conversion_value_eq, last_touch_raw]
  have := foldl_measure (sumValues (κ := Cell) (α := ℚ))
    (fun acc j => if j.converted && !j.touchpoints.isEmpty then
      upsert acc (j.touchpoints.getLastD (.str "")) j.conversionValue else acc)
    convContrib js ?_ []
  · rwa [sumValues_nil, zero_add] at this
  · intro j hj acc
    obtain ⟨t, ts, hts⟩ := List.exists_cons_of_ne_nil (h j hj)
    cases hc : j.converted with
    | true => simp [hts, hc, sumValues_upsert, convContrib]
    | false => simp [hts, hc, convContrib]

theorem linear_raw_sum (js : List Journey)
    (h : ∀ j ∈ js, j.touchpoints ≠ []) :
    sumValues (linear_raw js) = total_conversion_value js := by
  rw [total_conversion_value_eq, linear_raw]
  have := foldl_measure (sumValues (κ := Cell) (α := ℚ))
    (fun acc j => if j.converted && !j.touchpoints.isEmpty then
      creditList acc j.touchpoints (j.conversionValue / j.touchpoints.length)
      else acc)
    convContrib js ?_ []
  · rwa [sumValues_nil, zero_add] at this
  · intro j hj acc
    obtain ⟨t, ts, hts⟩ := List.exists_cons_of_ne_nil (h j hj)
    have hn : ((j.touchpoints.length : ℚ)) ≠ 0 := by
      rw [hts, List.length_cons]
      exact Nat.cast_ne_zero.mpr (Nat.succ_ne_zero _)
    cases hc : j.converted with
    | true =>
        simp only [hts, hc, Bool.true_and, List.isEmpty_cons, Bool.not_false,
          if_pos]
        rw [← hts, sumValues_creditList, convContrib, hc, if_pos rfl,
          mul_div_cancel₀ _ hn]
    | false => simp [hts, hc, convContrib]

theorem position_based_raw_sum (js : List Journey)
    (h : ∀ j ∈ js, j.touchpoints ≠ []) :
    sumValues (position_based_raw js) = total_conversion_value js := by
  rw [total_conversion_value_eq, position_based_raw]
  have := foldl_measure (sumValues (κ := Cell) (α := ℚ))
    (fun acc j => if j.converted && !j.touchpoints.isEmpty then
      match j.touchpoints with
      | [] => acc
      | [t] => upsert acc t j.conversionValue
      | [t1, t2] =>
          upsert (upsert acc t1 (j.conversionValue * (1/2))) t2
            (j.conversionValue * (1/2))
      | t1 :: t2 :: t3 :: rest =>
          let tps := t1 :: t2 :: t3 :: rest
          creditList
            (upsert (upsert acc t1 (j.conversionValue * (2/5)))
              (tps.getLastD (.str "")) (j.conversionValue * (2/5)))
            ((tps.drop 1).dropLast)
            (j.conversionValue * (1/5) / ((tps.length : ℚ) - 2))
      else acc)
    convContrib js ?_ []
  · rwa [sumValues_nil, zero_add] at this
  · intro j hj acc
    cases hc : j.converted with
    | false => simp [hc, convContrib]
    | true =>
        match hts : j.touchpoints, h j hj with
        | [t], _ => simp [hts, hc, sumValues_upsert, convContrib]
        | [t1, t2], _ =>
            simp [hts, hc, sumValues_upsert, convContrib]
            ring
        | t1 :: t2 :: t3 :: rest, _ =>
            have hlen : (((t1 :: t2 :: t3 :: rest).drop 1).dropLast).length
                = rest.length + 1 := by
              simp
            simp only [hts, hc, Bool.true_and, List.isEmpty_cons, Bool.not_false,
              if_pos, convContrib, if_true]
            rw [sumValues_creditList, sumValues_upsert, sumValues_upsert, hlen]
            have hne : ((rest.length : ℚ)) + 1 ≠ 0 := by positivity
            simp only [List.length_cons]
            push_cast
            have hden : ((rest.length : ℚ) + 1 + 1 + 1) - 2 = rest.length + 1 := by
              ring
            rw [hden, mul_comm ((rest.length : ℚ) + 1), div_mul_cancel₀ _ hne]
            ring

theorem shapley_raw_sumAllVals (js : List Journey) (m : ℕ) :
    sumValues (shapley_raw js m) = sumAllVals (shapley_contributions js m) := by
  simp only [shapley_raw, sumValues, sumAllVals, List.map_map]
  rfl

theorem shapley_raw_sum (js : List Journey) (m : ℕ) (hm : 0 < m)
    (h : ∀ j ∈ js, j.touchpoints ≠ []) :
    sumValues (shapley_raw js m) = total_conversion_value js := by
  rw [shapley_raw_sumAllVals, total_conversion_value_eq, shapley_contributions]
  have := foldl_measure (sumAllVals (κ := Cell))
    (fun acc j => if j.converted && !j.touchpoints.isEmpty then
      let tps := j.touchpoints.take m
      if tps.isEmpty then acc
      else tps.foldl (fun a t => appendVal a t (j.conversionValue / tps.length)) acc
      else acc)
    convContrib js ?_ []
  · rwa [show sumAllVals ([] : List (Cell × List ℚ)) = 0 from rfl, zero_add] at this
  · intro j hj acc
    cases hc : j.converted with
    | false => simp [hc, convContrib]
    | true =>
        obtain ⟨t, ts, hts⟩ := List.exists_cons_of_ne_nil (h j hj)
        have htake : (j.touchpoints.take m).length = min m j.touchpoints.length := by
          simp
        have hpos : 0 < (j.touchpoints.take m).length := by
          rw [htake, hts]
          simp [hm, Nat.lt_min]
        have hne : j.touchpoints.take m ≠ [] := List.ne_nil_of_length_pos hpos
        have hq : ((j.touchpoints.take m).length : ℚ) ≠ 0 :=
          Nat.cast_ne_zero.mpr (Nat.pos_iff_ne_zero.mp hpos)
        simp only [hts, hc, Bool.true_and, List.isEmpty_cons, Bool.not_false,
          if_pos, convContrib, if_true]
        rw [← hts]
        simp only [List.isEmpty_eq_true, hne, if_neg, ite_false]
        rw [sumAllVals_foldl_appendVal, mul_div_cancel₀ _ hq]

theorem sum_map_scale (l : List ℝ) (c w : ℝ) :
    (l.map (fun x => c * (x / w))).sum = c * (l.sum / w) := by
  induction l with
  | nil => simp
  | cons x xs ih =>
      simp only [List.map_cons, List.sum_cons, ih]
      ring

theorem time_decay_raw_sum (js : List Journey) (halfLifeDays : ℚ)
    (hwf : ∀ j ∈ js, JourneyWF j) :
    sumValues (time_decay_raw js halfLifeDays)
      = ((total_conversion_value js : ℚ) : ℝ) := by
  rw [time_decay_raw]
  have htot : ((total_conversion_value js : ℚ) : ℝ)
      = (js.map (fun j => ((convContrib j : ℚ) : ℝ))).sum := by
    rw [total_conversion_value_eq]
    rw [show ((((js.map convContrib).sum : ℚ)) : ℝ)
        = (Rat.castHom ℝ) (js.map convContrib).sum from rfl]
    rw [map_list_sum, List.map_map]
    rfl
  rw [htot]
  have := foldl_measure (sumValues (κ := Cell) (α := ℝ))
    (fun acc j => if j.converted && !j.touchpoints.isEmpty then
      let convTime := j.timestamps.getLastD 0
      let weights : List ℝ := j.timestamps.map (fun ts =>
        Real.exp (-(Real.log 2 / (halfLifeDays : ℝ)) * ((convTime - ts : ℚ) : ℝ)))
      let totalWeight := weights.sum
      if 0 < totalWeight then
        (j.touchpoints.zip weights).foldl
          (fun a p => upsert a p.1 ((j.conversionValue : ℝ) * (p.2 / totalWeight)))
          acc
      else acc
      else acc)
    (fun j => ((convContrib j : ℚ) : ℝ)) js ?_ []
  · rwa [sumValues_nil, zero_add] at this
  · intro j hj acc
    cases hc : j.converted with
    | false => simp [hc, convContrib]
    | true =>
        obtain ⟨hne, hlen⟩ := hwf j hj
        obtain ⟨t, ts, hts⟩ := List.exists_cons_of_ne_nil hne
        have htsne : j.timestamps ≠ [] := by
          apply List.ne_nil_of_length_pos
          rw [hlen, hts]
          simp
        simp only [hts, hc, Bool.true_and, List.isEmpty_cons, Bool.not_false,
          if_pos, convContrib, if_true]
        rw [← hts]
        set convTime := j.timestamps.getLastD 0 with hct
        set weights : List ℝ := j.timestamps.map (fun ts =>
          Real.exp (-(Real.log 2 / (halfLifeDays : ℝ)) * ((convTime - ts : ℚ) : ℝ)))
          with hw
        have hwne : weights ≠ [] := by
          rw [hw]
          simpa using htsne
        have hwpos : 0 < weights.sum := by
          apply List.sum_pos
          · intro x hx
            rw [hw] at hx
            obtain ⟨y, _, hy⟩ := List.mem_map.mp hx
            rw [← hy]
            exact Real.exp_pos _
          · exact hwne
        rw [if_pos hwpos]
        rw [sumValues_foldl_upsert (fun p : Cell × ℝ => p.1)
          (fun p => ((j.conversionValue : ℚ) : ℝ) * (p.2 / weights.sum))]
        have hmap : ((j.touchpoints.zip weights).map
            (fun p => ((j.conversionValue : ℚ) : ℝ) * (p.2 / weights.sum)))
            = ((j.touchpoints.zip weights).map Prod.snd).map
                (fun x => ((j.conversionValue : ℚ) : ℝ) * (x / weights.sum)) := by
          rw [List.map_map]
          rfl
        have hsnd : (j.touchpoints.zip weights).map Prod.snd = weights := by
          apply List.map_snd_zip
          rw [hw, List.length_map, ← hlen]
        rw [hmap, hsnd, sum_map_scale, div_self (ne_of_gt hwpos), mul_one]

/-! ## Normalization bounds -/

theorem sumValues_stableSort {κ α : Type} [AddCommMonoid α]
    (le : (κ × α) → (κ × α) → Bool) (l : List (κ × α)) :
    sumValues (stableSort le l) = sumValues l :=
  ((stableSort_perm le l).map Prod.snd).sum_eq

theorem sum_map_div_mul {κ α : Type} [LinearOrderedField α]
    (l : List (κ × α)) (t c : α) :
    (l.map (fun p => p.2 / t * c)).sum = sumValues l / t * c := by
  induction l with
  | nil => simp [sumValues]
  | cons p ps ih =>
      simp only [List.map_cons, List.sum_cons, ih, sumValues, List.map_cons,
        List.sum_cons]
      ring

/-- What `_normalize_attribution` guarantees about a model's output, given
the total raw credited value: the `value` fields sum to the total up to the
per-entry rounding error (value fields are rounded at 4 decimal places), and
when the total is nonzero the `percentage` fields sum to 100 up to the
per-entry rounding error (percentages are rounded at 2 decimal places). -/
def Conserves {α : Type} [LinearOrderedField α]
    (out : List (Cell × α × α)) (total : α) : Prop :=
  |((out.map (fun p => p.2.1)).sum) - total| ≤ (out.length : α) * (1 / 20000) ∧
  (total ≠ 0 → |((out.map (fun p => p.2.2)).sum) - 100| ≤ (out.length : α) * (1 / 200))

theorem normalize_conserves {α : Type} [LinearOrderedField α] [FloorRing α]
    (a : List (Cell × α)) :
    Conserves (normalize_attribution a) (sumValues a) := by
  unfold Conserves normalize_attribution
  by_cases h : sumValues a = 0
  · rw [if_pos h, h]
    norm_num
  · rw [if_neg h]
    set srt := stableSort (fun p q : Cell × α => decide (q.2 ≤ p.2)) a with hsrt
    have hsum : sumValues srt = sumValues a := sumValues_stableSort _ a
    constructor
    · rw [List.map_map]
      simp only [Function.comp, List.length_map]
      have happ := sum_map_approx
        (fun p : Cell × α => pyRound 4 p.2) (fun p : Cell × α => p.2)
        (1 / 20000) srt
        (fun p _ => by
          have := pyRound_err 4 p.2
          have h4 : (1 : α) / (2 * (10:α)^4) = 1 / 20000 := by norm_num
          rwa [h4] at this)
      have hg : (srt.map (fun p : Cell × α => p.2)).sum = sumValues a := hsum
      rw [hg] at happ
      exact happ
    · intro htot
      rw [List.map_map]
      simp only [Function.comp, List.length_map]
      have happ := sum_map_approx
        (fun p : Cell × α => pyRound 2 (p.2 / sumValues a * 100))
        (fun p : Cell × α => p.2 / sumValues a * 100)
        (1 / 200) srt
        (fun p _ => by
          have := pyRound_err 2 (p.2 / sumValues a * 100)
          have h2 : (1 : α) / (2 * (10:α)^2) = 1 / 200 := by norm_num
          rwa [h2] at this)
      have hg : (srt.map (fun p : Cell × α => p.2 / sumValues a * 100)).sum
          = 100 := by
        rw [sum_map_div_mul, hsum, div_self htot, one_mul]
      rw [hg] at happ
      exact happ

/-! ## Claim theorems: attribution (C2, C3, C10) -/

/-- A journey with conversion value 0, as `_build_user_journeys` produces when
the conversion-value column holds `0.0` on the user's last row. -/
def zeroValueJourney : Journey := ⟨.str "u", [.str "A"], [0], true, 0⟩

/-- **C2, counterexample.**  The claim asserts that for *every* input with at
least one converted journey the per-touchpoint percentages sum to 100 within
rounding (1e-2).  For a single converted journey of conversion value 0 the
total credited value is 0, `_normalize_attribution` returns an empty mapping,
and the percentages sum to 0, not 100. -/
theorem attribution_conservation_counterexample :
    zeroValueJourney.converted = true ∧
    linear_attribution [zeroValueJourney] = [] ∧
    ¬ (|(((linear_attribution [zeroValueJourney]).map (fun p => p.2.2)).sum)
        - 100| ≤ (1:ℚ)/100) := by
  have h : linear_attribution [zeroValueJourney] = [] := by
    norm_num [linear_attribution, normalize_attribution, linear_raw,
      zeroValueJourney, creditList, upsert, sumValues]
  refine ⟨rfl, h, ?_⟩
  rw [h]
  norm_num

/-- **C2 (amended).**  For each of the six attribution models and every
well-formed input: the raw credited values sum *exactly* to the sum of the
conversion values of the converted journeys, the rounded `value` fields of
the normalized result sum to that total within the accumulated rounding
error (½·10⁻⁴ per touchpoint), and — *provided that total is nonzero* — the
rounded `percentage` fields sum to 100 within ½·10⁻² per touchpoint.  (When
the total is zero the normalized result is empty and the percentages sum
to 0.)  Shapley is taken at its caller-supplied default truncation 5;
time-decay holds for every half-life. -/
theorem attribution_conservation_amended (js : List Journey)
    (halfLifeDays : ℚ) (hwf : ∀ j ∈ js, JourneyWF j) :
    (sumValues (first_touch_raw js) = total_conversion_value js ∧
      Conserves (first_touch_attribution js) (total_conversion_value js)) ∧
    (sumValues (last_touch_raw js) = total_conversion_value js ∧
      Conserves (last_touch_attribution js) (total_conversion_value js)) ∧
    (sumValues (linear_raw js) = total_conversion_value js ∧
      Conserves (linear_attribution js) (total_conversion_value js)) ∧
    (sumValues (position_based_raw js) = total_conversion_value js ∧
      Conserves (position_based_attribution js) (total_conversion_value js)) ∧
    (sumValues (shapley_raw js 5) = total_conversion_value js ∧
      Conserves (shapley_attribution js 5) (total_conversion_value js)) ∧
    (sumValues (time_decay_raw js halfLifeDays)
        = ((total_conversion_value js : ℚ) : ℝ) ∧
      Conserves (time_decay_attribution js halfLifeDays)
        ((total_conversion_value js : ℚ) : ℝ)) := by
  have hne : ∀ j ∈ js, j.touchpoints ≠ [] := fun j hj => (hwf j hj).1
  have h1 := first_touch_raw_sum js hne
  have h2 := last_touch_raw_sum js hne
  have h3 := linear_raw_sum js hne
  have h4 := position_based_raw_sum js hne
  have h5 := shapley_raw_sum js 5 (by norm_num) hne
  have h6 := time_decay_raw_sum js halfLifeDays hwf
  exact ⟨⟨h1, h1 ▸ normalize_conserves _⟩, ⟨h2, h2 ▸ normalize_conserves _⟩,
    ⟨h3, h3 ▸ normalize_conserves _⟩, ⟨h4, h4 ▸ normalize_conserves _⟩,
    ⟨h5, h5 ▸ normalize_conserves _⟩, ⟨h6, h6 ▸ normalize_conserves _⟩⟩

/-- A concrete well-formed converted journey for the C2 witness. -/
def witnessJourney : Journey := ⟨.str "u", [.str "A", .str "B"], [0, 1], true, 10⟩

/-- **C2, witness**: the amended theorem applied at a concrete input. -/
theorem attribution_conservation_witness :
    (sumValues (first_touch_raw [witnessJourney])
        = total_conversion_value [witnessJourney] ∧
      Conserves (first_touch_attribution [witnessJourney])
        (total_conversion_value [witnessJourney])) ∧
    (sumValues (last_touch_raw [witnessJourney])
        = total_conversion_value [witnessJourney] ∧
      Conserves (last_touch_attribution [witnessJourney])
        (total_conversion_value [witnessJourney])) ∧
    (sumValues (linear_raw [witnessJourney])
        = total_conversion_value [witnessJourney] ∧
      Conserves (linear_attribution [witnessJourney])
        (total_conversion_value [witnessJourney])) ∧
    (sumValues (position_based_raw [witnessJourney])
        = total_conversion_value [witnessJourney] ∧
      Conserves (position_based_attribution [witnessJourney])
        (total_conversion_value [witnessJourney])) ∧
    (sumValues (shapley_raw [witnessJourney] 5)
        = total_conversion_value [witnessJourney] ∧
      Conserves (shapley_attribution [witnessJourney] 5)
        (total_conversion_value [witnessJourney])) ∧
    (sumValues (time_decay_raw [witnessJourney] 7)
        = ((total_conversion_value [witnessJourney] : ℚ) : ℝ) ∧
      Conserves (time_decay_attribution [witnessJourney] 7)
        ((total_conversion_value [witnessJourney] : ℚ) : ℝ)) :=
  attribution_conservation_amended [witnessJourney] 7
    (by
      intro j hj
      simp only [List.mem_singleton] at hj
      subst hj
      exact ⟨by simp [witnessJourney], by simp [witnessJourney]⟩)

def c3JourneyA : Journey := ⟨.str "u1", [.str "A"], [0], true, 1⟩

def c3JourneyAB : Journey := ⟨.str "u2", [.str "A", .str "B"], [0, 1], true, 1⟩

/-- **C3 (code bug).**  The spec — and the source's own comment
`# 计算平均贡献` ("compute the average contribution") directly above the
assignment — say each touchpoint's pre-normalization credit is the *mean* of
its per-journey contributions `conversion_value / journey_length`; the code
executes `attribution[touchpoint] = sum(contributions)`, the *sum*.
At the failing input (journeys `[A]` and `[A, B]`, each with value 1),
touchpoint `A`'s contribution list is `[1, 1/2]`; the code credits it
`3/2`, while the claimed mean would be `3/4 = (1 + 1/2)/2 ≠ 3/2`. -/
theorem shapley_sums_contributions_at_failing_input :
    shapley_contributions [c3JourneyA, c3JourneyAB] 5
      = [(.str "A", [1, 1/2]), (.str "B", [1/2])] ∧
    shapley_raw [c3JourneyA, c3JourneyAB] 5
      = [(.str "A", 3/2), (.str "B", 1/2)] ∧
    ((3:ℚ)/2) ≠ (1 + 1/2) / 2 := by
  refine ⟨?_, ?_, by norm_num⟩
  · simp +decide [shapley_contributions, c3JourneyA, c3JourneyAB, appendVal]
  · simp +decide [shapley_raw, shapley_contributions, c3JourneyA, c3JourneyAB,
      appendVal]
    norm_num

/-- **C10.**  When no conversion column is supplied, `_build_user_journeys`
marks every journey converted with the default conversion value 1.0 (and a
nonempty touchpoint list, so every journey passes every model's crediting
guard `converted and touchpoints`), and `_generate_summary`'s
`conversion_rate` is 100 whenever at least one journey exists. -/
theorem no_conversion_col_defaults (df : DataFrame) (u tp ts : String) :
    (∀ j ∈ build_user_journeys df u tp ts none none,
      j.converted = true ∧ j.conversionValue = 1 ∧ j.touchpoints ≠ []) ∧
    (build_user_journeys df u tp ts none none ≠ [] →
      conversion_rate_summary (build_user_journeys df u tp ts none none)
        = 100) := by
  have hall : ∀ j ∈ build_user_journeys df u tp ts none none,
      j.converted = true ∧ j.conversionValue = 1 ∧ j.touchpoints ≠ [] := by
    intro j hj
    rw [build_user_journeys, List.mem_filterMap] at hj
    obtain ⟨uid, _, hf⟩ := hj
    dsimp only at hf
    by_cases hemp : (List.map
        (fun r => cellAt r ((pyIndex?
          (sortRowsBy1 ⟨df.cols, groupRows df ((pyIndex? df.cols u).getD 0) uid⟩ ts).cols
          tp).getD 0))
        (sortRowsBy1 ⟨df.cols, groupRows df ((pyIndex? df.cols u).getD 0) uid⟩ ts).rows).isEmpty
    · rw [if_pos hemp] at hf
      cases hf
    · rw [if_neg hemp] at hf
      obtain rfl := Option.some_inj.mp hf
      refine ⟨rfl, rfl, ?_⟩
      intro hnil
      exact hemp (by simpa using congrArg List.isEmpty hnil)
  refine ⟨hall, fun hne => ?_⟩
  set js := build_user_journeys df u tp ts none none with hjs
  have hfilter : js.filter (fun j => j.converted) = js :=
    List.filter_eq_self.mpr (fun j hj => by
      have := (hall j hj).1
      simpa using this)
  rw [conversion_rate_summary]
  rw [if_neg (by simpa using hne)]
  rw [hfilter]
  have hlen : ((js.length : ℚ)) ≠ 0 := by
    have : js.length ≠ 0 := fun h0 => hne (List.length_eq_zero.mp h0)
    exact Nat.cast_ne_zero.mpr this
  rw [div_self hlen, one_mul]
  have h100 := pyRound_intCast (α := ℚ) 2 100
  norm_num at h100
  exact h100

/-- A one-user dataframe for the C10 witness. -/
def c10df : DataFrame :=
  ⟨["user", "event", "ts"], [[.str "u1", .str "A", .num 0]]⟩

/-- **C10, witness**: on a concrete one-user dataset with no conversion
column the (nonempty) journey list yields `conversion_rate = 100`. -/
theorem no_conversion_col_defaults_witness :
    build_user_journeys c10df "user" "event" "ts" none none ≠ [] ∧
    conversion_rate_summary
      (build_user_journeys c10df "user" "event" "ts" none none) = 100 := by
  have hne : build_user_journeys c10df "user" "event" "ts" none none ≠ [] := by
    norm_num [build_user_journeys, c10df, groupKeys, groupRows, sortRowsBy1,
      dedupFirst, stableSort, insertStable, pyIndex?, cellAt, Cell.le]
    simp
  exact ⟨hne, (no_conversion_col_defaults c10df "user" "event" "ts").2 hne⟩

/-! ## Funnel analysis (`path_analysis_service.py`, `funnel_analysis`)

Per-user event paths carry the user's events and timestamps in dataframe
order (after the service's global `sort_values([user_id_col, timestamp_col])`
the per-user order is by timestamp).  Timestamps are in hours — the unit the
source converts time differences to. -/

structure UserPath : Type where
  userId : Cell
  events : List Cell
  timestamps : List ℚ
deriving DecidableEq

/-- Python truthiness of the `time_window` argument
(`if time_window and i > 0`): `None` and `0` are falsy. -/
def pyTruthyOpt : Option ℚ → Bool
  | none => false
  | some w => w ≠ 0

/-- Membership of a user in `step_users[i]` (source lines 60–90): the step
label must occur in the user's events; when a (truthy) time window is
configured and `i > 0`, the previous step's label must also occur, strictly
before the first occurrence of the current label, and within the window;
otherwise occurrence alone suffices. -/
def inFunnelStep (steps : List Cell) (tw : Option ℚ) (i : ℕ) (p : UserPath) :
    Bool :=
  match steps.get? i with
  | none => false
  | some step =>
    if step ∈ p.events then
      if pyTruthyOpt tw && decide (0 < i) then
        match steps.get? (i - 1) with
        | none => false
        | some prevStep =>
          if prevStep ∈ p.events then
            if (pyIndex? p.events prevStep).getD 0
                < (pyIndex? p.events step).getD 0 then
              decide ((p.timestamps.getD ((pyIndex? p.events step).getD 0) 0
                - p.timestamps.getD ((pyIndex? p.events prevStep).getD 0) 0)
                ≤ tw.getD 0)
            else false
          else false
      else true
    else false

/-- The user's contribution to `step_times[i]` (the observed transition time
from step `i-1`, in hours), mirroring both branches of the source loop. -/
def stepTimeContribution (steps : List Cell) (tw : Option ℚ) (i : ℕ)
    (p : UserPath) : Option ℚ :=
  match steps.get? i with
  | none => none
  | some step =>
    if step ∈ p.events then
      if pyTruthyOpt tw && decide (0 < i) then
        match steps.get? (i - 1) with
        | none => none
        | some prevStep =>
          if prevStep ∈ p.events then
            if (pyIndex? p.events prevStep).getD 0
                < (pyIndex? p.events step).getD 0 then
              if (p.timestamps.getD ((pyIndex? p.events step).getD 0) 0
                  - p.timestamps.getD ((pyIndex? p.events prevStep).getD 0) 0)
                  ≤ tw.getD 0 then
                some (p.timestamps.getD ((pyIndex? p.events step).getD 0) 0
                  - p.timestamps.getD ((pyIndex? p.events prevStep).getD 0) 0)
              else none
            else none
          else none
      else
        if 0 < i then
          match steps.get? (i - 1) with
          | none => none
          | some prevStep =>
            if prevStep ∈ p.events then
              if (pyIndex? p.events prevStep).getD 0
                  < (pyIndex? p.events step).getD 0 then
                some (p.timestamps.getD ((pyIndex? p.events step).getD 0) 0
                  - p.timestamps.getD ((pyIndex? p.events prevStep).getD 0) 0)
              else none
            else none
        else none
    else none

/-- `len(step_users[i])` over a path list (one path per user). -/
def stepUserCount (paths : List UserPath) (steps : List Cell) (tw : Option ℚ)
    (i : ℕ) : ℕ :=
  (paths.filter (fun p => inFunnelStep steps tw i p)).length

structure FunnelStepResult : Type where
  step : ℕ
  name : Cell
  users : ℕ
  conversion_rate : ℚ
  drop_off_rate : ℚ
  avg_time_from_prev : ℚ
deriving DecidableEq

structure FunnelResult : Type where
  total_users : ℕ
  funnel_steps : List FunnelStepResult
  overall_conversion_rate : Option ℚ
deriving DecidableEq

/-- The funnel computation over already-built user paths (source lines
43–127; the `user_paths` field, initialized to `[]` and never filled by the
source, is omitted). -/
def funnelFromPaths (paths : List UserPath) (steps : List Cell)
    (tw : Option ℚ) : FunnelResult :=
  let stepResults := (List.range steps.length).map (fun i =>
    let users := stepUserCount paths steps tw i
    let prevUsers := stepUserCount paths steps tw (i - 1)
    let cr : ℚ := if i = 0 then 100
      else if 0 < prevUsers then (users : ℚ) / prevUsers * 100 else 0
    let dr : ℚ := if i = 0 then 0
      else if 0 < prevUsers then 100 - (users : ℚ) / prevUsers * 100 else 100
    let times := paths.filterMap (fun p => stepTimeContribution steps tw i p)
    let avg : ℚ := if times.isEmpty then 0 else times.sum / times.length
    { step := i + 1
      name := (steps.get? i).getD (.str "")
      users := users
      conversion_rate := pyRound 2 cr
      drop_off_rate := pyRound 2 dr
      avg_time_from_prev := pyRound 2 avg })
  { total_users := (dedupFirst (paths.map (fun p => p.userId))).length
    funnel_steps := stepResults
    overall_conversion_rate :=
      match stepResults.head?, stepResults.getLast? with
      | some first, some last =>
          if 0 < first.users then
            some (pyRound 2 ((last.users : ℚ) / first.users * 100))
          else some 0
      | _, _ => none }

/-- The per-user paths a path/funnel service derives from the dataframe:
sort by `[user_id_col, timestamp_col]`, group by user (keys ascending), and
read off each group's event and timestamp sequences. -/
def user_paths_of (df : DataFrame) (u e t : String) : List UserPath :=
  let d := sortRowsBy2 df u t
  let ui := (pyIndex? d.cols u).getD 0
  let ei := (pyIndex? d.cols e).getD 0
  let ti := (pyIndex? d.cols t).getD 0
  (groupKeys d ui).map (fun k =>
    { userId := k
      events := (groupRows d ui k).map (fun r => cellAt r ei)
      timestamps := (groupRows d ui k).map (fun r => (cellAt r ti).asNum) })

/-- `funnel_analysis` at the dataframe level.  Column accesses happen in
source order — `pd.to_datetime(df[timestamp_col])` first, then
`sort_values([user_id_col, timestamp_col])`, then
`groupby(user_id_col)[event_col]` — so the first absent column among
timestamp, user, event surfaces as the pandas `KeyError`. -/
def funnel_analysis (df : DataFrame) (u e t : String) (steps : List Cell)
    (tw : Option ℚ) : Except PyError FunnelResult := do
  let _ ← getCol df t
  let _ ← getCol df u
  let _ ← getCol df e
  pure (funnelFromPaths (user_paths_of df u e t) steps tw)

/-! ## Claim theorems: funnel ordering (C1) -/

/-- `a` occurs in `events` at some position strictly after the first
occurrence of `b`. -/
def occursAfterFirst (events : List Cell) (a b : Cell) : Bool :=
  match pyIndex? events b with
  | none => false
  | some m => a ∈ events.drop (m + 1)

/-- The dataset behind the C1 counterexample: one user whose events are
`B` (hour 0) then `A` (hour 1). -/
def c1df : DataFrame :=
  ⟨["user", "event", "ts"],
    [[.str "u", .str "B", .num 0], [.str "u", .str "A", .num 1]]⟩

/-- **C1, counterexample.**  Without a time window, funnel membership ignores
ordering: for the dataset with the single user path `[B, A]` and funnel
steps `[A, B]`, the user is counted in step 1 (label `B`) although `B` never
occurs after the first occurrence of step 0's label `A`. -/
theorem funnel_step_ordering_counterexample :
    user_paths_of c1df "user" "event" "ts"
      = [⟨.str "u", [.str "B", .str "A"], [0, 1]⟩] ∧
    inFunnelStep [.str "A", .str "B"] none 1
      ⟨.str "u", [.str "B", .str "A"], [0, 1]⟩ = true ∧
    occursAfterFirst [.str "B", .str "A"] (.str "B") (.str "A") = false := by
  refine ⟨?_, ?_, ?_⟩
  · norm_num +decide [user_paths_of, c1df, sortRowsBy2, groupKeys, groupRows,
      dedupFirst, stableSort, insertStable, pyIndex?, cellAt, Cell.le,
      Cell.asNum]
  · simp +decide [inFunnelStep, pyTruthyOpt, pyIndex?]
  · simp +decide [occursAfterFirst, pyIndex?]

/-- **C1 (amended).**  When a (truthy) time window *is* configured, funnel
step membership respects ordering: for `i > 0`, a user belongs to step `i`
only if step `i`'s label occurs in their events strictly after the first
occurrence of step `i−1`'s label.  (Without a time window — the
counterexample — occurrence anywhere in the user's events suffices.) -/
theorem funnel_step_ordering_amended (steps : List Cell) (w : ℚ) (hw : w ≠ 0)
    (i : ℕ) (hi : 0 < i) (p : UserPath) (si sp : Cell)
    (hsi : steps.get? i = some si) (hsp : steps.get? (i - 1) = some sp)
    (hmem : inFunnelStep steps (some w) i p = true) :
    occursAfterFirst p.events si sp = true := by
  rw [inFunnelStep, hsi] at hmem
  dsimp only at hmem
  have hcond : (pyTruthyOpt (some w) && decide (0 < i)) = true := by
    simp [pyTruthyOpt, hw, hi]
  by_cases hstep : si ∈ p.events
  · rw [if_pos hstep, hcond, if_pos rfl, hsp] at hmem
    dsimp only at hmem
    by_cases hprev : sp ∈ p.events
    · rw [if_pos hprev] at hmem
      obtain ⟨pi, hpi⟩ := pyIndex?_isSome_of_mem hprev
      obtain ⟨ei, hei⟩ := pyIndex?_isSome_of_mem hstep
      rw [hpi, hei] at hmem
      simp only [Option.getD_some] at hmem
      by_cases hlt : pi < ei
      · rw [occursAfterFirst, hpi]
        have hget : p.events.get? ei = some si := pyIndex?_get hei
        have hdrop : (p.events.drop (pi + 1)).get? (ei - (pi + 1))
            = p.events.get? ei := by
          rw [List.get?_eq_getElem?, List.get?_eq_getElem?, List.getElem?_drop]
          congr 1
          omega
        have : si ∈ p.events.drop (pi + 1) :=
          List.get?_mem (by rw [hdrop, hget])
        simpa using this
      · rw [if_neg hlt] at hmem
        cases hmem
    · rw [if_neg hprev] at hmem
      cases hmem
  · rw [if_pos hcond, if_neg hstep] at hmem
    cases hmem

/-- **C1, witness**: a user with events `[A, B]` one hour apart, steps
`[A, B]`, window 5 hours — counted in step 1, and indeed `B` occurs after
the first `A`. -/
theorem funnel_step_ordering_witness :
    inFunnelStep [.str "A", .str "B"] (some 5) 1
      ⟨.str "u", [.str "A", .str "B"], [0, 1]⟩ = true ∧
    occursAfterFirst [.str "A", .str "B"] (.str "B") (.str "A") = true := by
  have hmem : inFunnelStep [.str "A", .str "B"] (some 5) 1
      ⟨.str "u", [.str "A", .str "B"], [0, 1]⟩ = true := by
    norm_num +decide [inFunnelStep, pyTruthyOpt, pyIndex?]
  exact ⟨hmem,
    funnel_step_ordering_amended [.str "A", .str "B"] 5 (by norm_num) 1
      (by norm_num) ⟨.str "u", [.str "A", .str "B"], [0, 1]⟩ (.str "B")
      (.str "A") rfl rfl hmem⟩

/-! ## Path analysis (`path_analysis_service.py`, `path_analysis`)

The service truncates each user's event sequence to `max_path_length`, counts
identical sequences, flags cycles (repeated labels within one path), builds
the acyclic sankey graph from the paths shared by at least `min_user_count`
users, and ranks the 20 most common paths.  The fields `graph_data`,
`node_details` and the `cycle_details` sample are not referenced by any
claim and are omitted from the result structure. -/

structure SankeyLink : Type where
  source : ℕ
  target : ℕ
  value : ℕ
deriving DecidableEq

structure TopPath : Type where
  path : List Cell
  user_count : ℕ
  percentage : ℚ
deriving DecidableEq

structure PathAnalysisResult : Type where
  total_users : ℕ
  total_paths : ℕ
  has_cycle_in_data : Bool
  sankey_nodes : List Cell
  sankey_links : List SankeyLink
  top_paths : List TopPath
deriving DecidableEq

/-- `path_counter`: a `Counter` over the truncated per-user event tuples, in
first-seen order. -/
def pathCounter (paths : List (Cell × List Cell)) (maxLen : ℕ) :
    List (List Cell × ℕ) :=
  paths.foldl (fun acc p => upsert acc (p.2.take maxLen) 1) []

/-- The cycle test of lines 174–181: some label repeats within the path. -/
def hasDup : List Cell → Bool
  | [] => false
  | x :: xs => x ∈ xs || hasDup xs

/-- Growing `node_map`/`nodes` with one path's events (first-seen order). -/
def addPathNodes (nodes : List Cell) (p : List Cell) : List Cell :=
  p.foldl (fun ns e => if e ∈ ns then ns else ns ++ [e]) nodes

/-- The sankey node list: events of the paths shared by at least
`min_user_count` users, in first-seen order (their reported `value` is the
constant 0 in the source and is not modelled). -/
def sankeyNodesOf (counter : List (List Cell × ℕ)) (minUC : ℕ) : List Cell :=
  counter.foldl (fun ns pc => if minUC ≤ pc.2 then addPathNodes ns pc.1 else ns) []

/-- The inner pair loop of the sankey-link construction (source lines
205–220), carrying the `seen_in_path` set.  An edge `source→target` is
skipped (`continue`) when `target` already occurred earlier in the path —
note the `continue` also skips `seen_in_path.add(source)` — and a self-loop
(`source == target` as node indices) is not counted. -/
def pathLinkFold (nodes : List Cell) (count : ℕ) :
    List Cell → List Cell → List ((ℕ × ℕ) × ℕ) → List ((ℕ × ℕ) × ℕ)
  | seen, src :: tgt :: rest, lc =>
      if tgt ∈ seen then pathLinkFold nodes count seen (tgt :: rest) lc
      else
        pathLinkFold nodes count
          (if src ∈ seen then seen else seen ++ [src]) (tgt :: rest)
          (match pyIndex? nodes src, pyIndex? nodes tgt with
            | some s, some t => if s ≠ t then upsert lc (s, t) count else lc
            | _, _ => lc)
  | _, _, lc => lc

/-- `link_counter` over all qualifying paths, rendered as link records. -/
def sankeyLinksOf (counter : List (List Cell × ℕ)) (nodes : List Cell)
    (minUC : ℕ) : List SankeyLink :=
  (counter.foldl (fun lc pc =>
      if minUC ≤ pc.2 then pathLinkFold nodes pc.2 [] pc.1 lc else lc) []).map
    (fun e => ⟨e.1.1, e.1.2, e.2⟩)

/-- `Counter.most_common(n)`: descending by count, ties in first-seen order
(Python's stable sort). -/
def mostCommon (counter : List (List Cell × ℕ)) (n : ℕ) :
    List (List Cell × ℕ) :=
  (stableSort (fun a b : List Cell × ℕ => b.2 ≤ a.2) counter).take n

/-- `top_paths` (source lines 256–264): the 20 most common paths, *filtered*
to those with at least `min_user_count` users. -/
def topPathsOf (counter : List (List Cell × ℕ)) (minUC totalUsers : ℕ) :
    List TopPath :=
  ((mostCommon counter 20).filter (fun pc => minUC ≤ pc.2)).map
    (fun pc => ⟨pc.1, pc.2, pyRound 2 ((pc.2 : ℚ) / totalUsers * 100)⟩)

/-- `path_analysis` over already-grouped per-user paths. -/
def path_analysis (paths : List (Cell × List Cell))
    (maxPathLength minUserCount : ℕ) : PathAnalysisResult :=
  let counter := pathCounter paths maxPathLength
  let nodes := sankeyNodesOf counter minUserCount
  { total_users := paths.length
    total_paths := counter.length
    has_cycle_in_data := counter.any (fun pc => hasDup pc.1)
    sankey_nodes := nodes
    sankey_links := sankeyLinksOf counter nodes minUserCount
    top_paths := topPathsOf counter minUserCount paths.length }

/-! ## Claim theorems: top-path filtering (C6) and cycle flagging (C7) -/

/-- **C6, counterexample.**  The claim says a path rarer than
`min_user_count` still appears in the "top paths" ranking.  For a single
user with path `[X]` and `min_user_count = 5`, the unique — hence most
frequent — path is excluded from `top_paths` (source line 259 filters by
`count >= min_user_count`). -/
theorem top_paths_filter_counterexample :
    (path_analysis [(.str "u", [.str "X"])] 10 5).total_paths = 1 ∧
    (path_analysis [(.str "u", [.str "X"])] 10 5).top_paths = [] := by
  constructor
  · simp +decide [path_analysis, pathCounter, upsert]
  · simp +decide [path_analysis, pathCounter, upsert, topPathsOf, mostCommon,
      stableSort, insertStable]

/-- **C6 (amended).**  The minimum-user filter applies to the top-paths
ranking exactly as to the graphs: every entry of `top_paths` has
`user_count ≥ min_user_count` (beyond being among the 20 most frequent
truncated paths). -/
theorem top_paths_filter_amended (paths : List (Cell × List Cell))
    (maxLen minUC : ℕ) :
    ∀ e ∈ (path_analysis paths maxLen minUC).top_paths,
      minUC ≤ e.user_count := by
  intro e he
  simp only [path_analysis, topPathsOf] at he
  obtain ⟨pc, hpc, rfl⟩ := List.mem_map.mp he
  have := (List.mem_filter.mp hpc).2
  simpa using this

/-- **C6, witness**: with `min_user_count = 1` the single user's path does
appear in `top_paths`, and the amended bound holds for it. -/
theorem top_paths_filter_witness :
    (⟨[Cell.str "X"], 1, 100⟩ : TopPath)
      ∈ (path_analysis [(.str "u", [.str "X"])] 10 1).top_paths ∧
    1 ≤ (⟨[Cell.str "X"], 1, (100:ℚ)⟩ : TopPath).user_count := by
  have hmem : (⟨[Cell.str "X"], 1, 100⟩ : TopPath)
      ∈ (path_analysis [(.str "u", [.str "X"])] 10 1).top_paths := by
    norm_num +decide [path_analysis, pathCounter, upsert, topPathsOf,
      mostCommon, stableSort, insertStable, pyRound, roundHalfEven]
  exact ⟨hmem, top_paths_filter_amended [(.str "u", [.str "X"])] 10 1 _ hmem⟩

/-- **C7.**  For the single user path `[X, Y, X]` (with `min_user_count = 1`,
as the spec's test requires so that the one-user path enters the graphs; the
cycle flag holds under the default 5 as well): the data is flagged cyclic,
the sankey nodes are `[X, Y]`, and the links are exactly `X→Y` (node 0 →
node 1) — in particular no re-entrant `Y→X` edge arises from the repeated
`X`. -/
theorem cycle_flag_and_acyclic_sankey :
    (path_analysis [(.str "u1", [.str "X", .str "Y", .str "X"])] 10
        1).has_cycle_in_data = true ∧
    (path_analysis [(.str "u1", [.str "X", .str "Y", .str "X"])] 10
        1).sankey_nodes = [.str "X", .str "Y"] ∧
    (path_analysis [(.str "u1", [.str "X", .str "Y", .str "X"])] 10
        1).sankey_links = [⟨0, 1, 1⟩] ∧
    (path_analysis [(.str "u1", [.str "X", .str "Y", .str "X"])] 10
        5).has_cycle_in_data = true := by
  refine ⟨?_, ?_, ?_, ?_⟩
  · simp +decide [path_analysis, pathCounter, upsert, hasDup]
  · simp +decide [path_analysis, pathCounter, upsert, sankeyNodesOf,
      addPathNodes]
  · simp +decide [path_analysis, pathCounter, upsert, sankeyNodesOf,
      addPathNodes, sankeyLinksOf, pathLinkFold, pyIndex?]
  · simp +decide [path_analysis, pathCounter, upsert, hasDup]

/-! ## Sequence mining (`sequence_mining_service.py`)

`sequence_pattern_mining` sorts the dataframe by `[user_id_col,
timestamp_col]`, builds one event sequence per user (`_build_sequences`),
and mines frequent patterns with a simplified PrefixSpan
(`_prefixspan_mining`). -/

structure UserSeq : Type where
  userId : Cell
  events : List Cell
  converted : Bool
deriving DecidableEq

/-- One emitted frequent pattern (the source's dict with keys `pattern`,
`support_count`, `support`, `length`, and — only when some supporting
projected sequence converted — `conversion_count` and `conversion_rate`). -/
structure PatternInfo : Type where
  pattern : List Cell
  support_count : ℕ
  support : ℚ
  length : ℕ
  conversion_count : Option ℕ
  conversion_rate : Option ℚ
deriving DecidableEq

/-- `_build_sequences`: group by user and sort each group by … the literal
column `'event_time'` if the dataframe has one, else by the dataframe's
*first* column (`df.columns[df.columns.get_loc('event_time') if 'event_time'
in df.columns else 0]`) — not by the configured timestamp column, which this
helper does not even receive.  Conversion flag from the group's last row,
default `False`; empty sequences dropped. -/
def build_sequences (df : DataFrame) (userCol eventCol : String)
    (convCol : Option String) : List UserSeq :=
  let ui := (pyIndex? df.cols userCol).getD 0
  (groupKeys df ui).filterMap (fun uid =>
    let sortCol := if "event_time" ∈ df.cols then "event_time"
      else df.cols.headD ""
    let g := sortRowsBy1 ⟨df.cols, groupRows df ui uid⟩ sortCol
    let ei := (pyIndex? g.cols eventCol).getD 0
    let events := g.rows.map (fun r => cellAt r ei)
    let converted : Bool :=
      match convCol with
      | some c =>
          if c ≠ "" ∧ c ∈ g.cols then
            match g.rows.getLast? with
            | some r => (cellAt r ((pyIndex? g.cols c).getD 0)).truthy
            | none => false
          else false
      | none => false
    if events.isEmpty then none else some ⟨uid, events, converted⟩)

/-- The sequence database as `sequence_pattern_mining` builds it: the global
`sort_values([user_id_col, timestamp_col])` followed by `_build_sequences`
(which then re-sorts each group by `'event_time'`/first column). -/
def sequences_of (df : DataFrame) (userCol eventCol tsCol : String)
    (convCol : Option String) : List UserSeq :=
  build_sequences (sortRowsBy2 df userCol tsCol) userCol eventCol convCol

/-- `pre` is a leading block of `l` (`events[i:i+len(prefix)] == prefix`
at `i = 0`). -/
def leadsWith : List Cell → List Cell → Bool
  | [], _ => true
  | _ :: _, [] => false
  | a :: as, b :: bs => a = b && leadsWith as bs

/-- The suffix after the *first* contiguous match of `pre`
(`project_database`'s scan). -/
def firstMatchSuffix (pre : List Cell) : List Cell → Option (List Cell)
  | [] => if leadsWith pre [] then some [] else none
  | e :: rest =>
      if leadsWith pre (e :: rest) then some ((e :: rest).drop pre.length)
      else firstMatchSuffix pre rest

/-- `project_database`: per sequence, the suffix after the first match of
the prefix, kept when nonempty. -/
def project_database (seqs : List UserSeq) (pre : List Cell) : List UserSeq :=
  seqs.foldr (fun s acc =>
    match firstMatchSuffix pre s.events with
    | some sfx => if sfx.isEmpty then acc else { s with events := sfx } :: acc
    | none => acc) []

/-- `suffix_counts[item]`: how many (projected) sequences *begin* with
`item` (only `seq["events"][0]` is counted). -/
def headCount (seqs : List UserSeq) (item : Cell) : ℕ :=
  (seqs.filter (fun s => s.events.head? = some item)).length

/-- The converted ones among those (lines 194–195). -/
def headConvertedCount (seqs : List UserSeq) (item : Cell) : ℕ :=
  (seqs.filter (fun s => s.events.head? = some item && s.converted)).length

/-- The keys of `suffix_counts` in first-appearance order (Python `Counter`
insertion order). -/
def distinctHeads (seqs : List UserSeq) : List Cell :=
  dedupFirst (seqs.filterMap (fun s => s.events.head?))

/-- One emitted pattern record. -/
def mkPatternInfo (pat : List Cell) (count totalN cc : ℕ) : PatternInfo :=
  { pattern := pat
    support_count := count
    support := pyRound 4 ((count : ℚ) / totalN)
    length := pat.length
    conversion_count := if 0 < cc then some cc else none
    conversion_rate := if 0 < cc then some (pyRound 4 ((cc : ℚ) / count))
      else none }

/-- `mine_recursive`.  The Python recursion terminates through the guard
`length > max_length` since `length` grows by one per call; the `fuel`
argument makes that termination structural.  Every call below passes
`fuel = maxLength + 1`, which the guard makes unreachable-to-exhaust
(entered at `length ≥ 2`, the recursion depth before the guard fires is at
most `maxLength - 1 < maxLength + 1`), so the `fuel = 0` branch never
decides an output. -/
def mine_recursive (minCount : ℤ) (totalN maxLength : ℕ) :
    ℕ → List UserSeq → List Cell → ℕ → List PatternInfo
  | 0, _, _, _ => []
  | fuel + 1, seqs, pre, length =>
      if maxLength < length then []
      else
        (distinctHeads seqs).foldr (fun item acc =>
          if minCount ≤ (headCount seqs item : ℤ) then
            mkPatternInfo (pre ++ [item]) (headCount seqs item) totalN
                (headConvertedCount seqs item)
              :: ((if (project_database seqs [item]).isEmpty then []
                   else mine_recursive minCount totalN maxLength fuel
                     (project_database seqs [item]) (pre ++ [item])
                     (length + 1)) ++ acc)
          else acc) []

/-- `item_counts[item]`: sequences containing `item`. -/
def containsCount (seqs : List UserSeq) (item : Cell) : ℕ :=
  (seqs.filter (fun s => item ∈ s.events)).length

/-- Converted sequences containing `item` (line 220). -/
def containsConvertedCount (seqs : List UserSeq) (item : Cell) : ℕ :=
  (seqs.filter (fun s => item ∈ s.events && s.converted)).length

/-- All event labels in first-appearance order.  Python builds `item_counts`
by iterating `set(seq["events"])` per sequence and `frequent_items` as a set
— set iteration order is unspecified; this is the deterministic
representative.  Counts, thresholds and membership are order-independent;
only tie order inside the final stable sort could differ. -/
def allItems (seqs : List UserSeq) : List Cell :=
  dedupFirst (seqs.foldr (fun s acc => s.events ++ acc) [])

/-- The initial projection for a single frequent item (source lines
228–239): suffix after the first occurrence, kept when nonempty. -/
def topProject (seqs : List UserSeq) (item : Cell) : List UserSeq :=
  seqs.foldr (fun s acc =>
    match pyIndex? s.events item with
    | some idx =>
        if idx + 1 < s.events.length then
          { s with events := s.events.drop (idx + 1) } :: acc
        else acc
    | none => acc) []

/-- `_prefixspan_mining`: emit every frequent single item, recursively grow
prefixes over projected databases, sort by `(support, conversion_rate)`
descending (stable), and keep the top 50. -/
def prefixspan_mining (seqs : List UserSeq) (minSupport : ℚ)
    (maxLength : ℕ) : List PatternInfo :=
  if seqs.isEmpty then []
  else
    let totalN := seqs.length
    let minCount : ℤ := pyInt (minSupport * totalN)
    let freqItems := (allItems seqs).filter
      (fun it => minCount ≤ (containsCount seqs it : ℤ))
    let patterns := freqItems.foldr (fun item acc =>
      mkPatternInfo [item] (containsCount seqs item) totalN
          (containsConvertedCount seqs item)
        :: ((if (topProject seqs item).isEmpty then []
             else mine_recursive minCount totalN maxLength (maxLength + 1)
               (topProject seqs item) [item] 2) ++ acc)) []
    (stableSort (fun a b : PatternInfo =>
        (b.support < a.support) ||
          (b.support = a.support &&
            (b.conversion_rate.getD 0 ≤ a.conversion_rate.getD 0)))
      patterns).take 50

/-! ## Claim theorem: journey sort invariant (C9, code bug) -/

/-- The C9 failing input: the *event* column comes first in the dataframe,
timestamps under `"ts"`.  The one user's events in timestamp order are
`B` (t=0) then `A` (t=1). -/
def c9df : DataFrame :=
  ⟨["event", "user", "ts"],
    [[.str "B", .str "u", .num 0], [.str "A", .str "u", .num 1]]⟩

/-- **C9 (code bug).**  `_build_sequences` re-sorts each user's rows by the
literal column `'event_time'` if present, else by the dataframe's *first*
column — not by the configured timestamp column (which it is not even
passed).  At the failing input the mined sequence comes out `[A, B]`
(sorted by the event column), while the timestamp-ordered sequence — which
the invariant requires, and which the attribution and path builders do
produce — is `[B, A]`. -/
theorem build_sequences_wrong_sort_at_failing_input :
    (sequences_of c9df "user" "event" "ts" none).map UserSeq.events
      = [[.str "A", .str "B"]] ∧
    (user_paths_of c9df "user" "event" "ts").map UserPath.events
      = [[.str "B", .str "A"]] ∧
    (build_user_journeys c9df "user" "event" "ts" none none).map
        Journey.touchpoints
      = [[.str "B", .str "A"]] := by
  refine ⟨?_, ?_, ?_⟩
  · norm_num +decide [sequences_of, build_sequences, c9df, sortRowsBy2,
      sortRowsBy1, groupKeys, groupRows, dedupFirst, stableSort, insertStable,
      pyIndex?, cellAt, Cell.le]
  · norm_num +decide [user_paths_of, c9df, sortRowsBy2, groupKeys, groupRows,
      dedupFirst, stableSort, insertStable, pyIndex?, cellAt, Cell.le,
      Cell.asNum]
  · norm_num +decide [build_user_journeys, c9df, sortRowsBy1, groupKeys,
      groupRows, dedupFirst, stableSort, insertStable, pyIndex?, cellAt,
      Cell.le, Cell.asNum]

/-! ## Claim theorems: support threshold (C5) -/

/-- Membership in the pattern-emitting fold (no guard). -/
theorem mem_foldr_emit_plain {β γ : Type} (info : β → γ) (rest : β → List γ) :
    ∀ (items : List β) (e : γ),
      e ∈ items.foldr (fun b acc => info b :: (rest b ++ acc)) [] →
        ∃ b ∈ items, e = info b ∨ e ∈ rest b := by
  intro items
  induction items with
  | nil => intro e he; cases he
  | cons b bs ih =>
      intro e he
      simp only [List.foldr_cons] at he
      rcases List.mem_cons.mp he with h | h
      · exact ⟨b, List.mem_cons_self b bs, Or.inl h⟩
      · rcases List.mem_append.mp h with h2 | h2
        · exact ⟨b, List.mem_cons_self b bs, Or.inr h2⟩
        · obtain ⟨b', hb', hor⟩ := ih e h2
          exact ⟨b', List.mem_cons_of_mem b hb', hor⟩

/-- Membership in the pattern-emitting fold (guarded form, as in
`mine_recursive`). -/
theorem mem_foldr_emit_cond {β γ : Type} (cond : β → Prop) [DecidablePred cond]
    (info : β → γ) (rest : β → List γ) :
    ∀ (items : List β) (e : γ),
      e ∈ items.foldr
        (fun b acc => if cond b then info b :: (rest b ++ acc) else acc) [] →
        ∃ b ∈ items, cond b ∧ (e = info b ∨ e ∈ rest b) := by
  intro items
  induction items with
  | nil => intro e he; cases he
  | cons b bs ih =>
      intro e he
      simp only [List.foldr_cons] at he
      by_cases hc : cond b
      · rw [if_pos hc] at he
        rcases List.mem_cons.mp he with h | h
        · exact ⟨b, List.mem_cons_self b bs, hc, Or.inl h⟩
        · rcases List.mem_append.mp h with h2 | h2
          · exact ⟨b, List.mem_cons_self b bs, hc, Or.inr h2⟩
          · obtain ⟨b', hb', hc', hor⟩ := ih e h2
            exact ⟨b', List.mem_cons_of_mem b hb', hc', hor⟩
      · rw [if_neg hc] at he
        obtain ⟨b', hb', hc', hor⟩ := ih e he
        exact ⟨b', List.mem_cons_of_mem b hb', hc', hor⟩

/-- Everything `mine_recursive` emits meets the support threshold. -/
theorem mine_recursive_support (minCount : ℤ) (totalN maxLength : ℕ) :
    ∀ (fuel : ℕ) (db : List UserSeq) (pre : List Cell) (len : ℕ),
      ∀ e ∈ mine_recursive minCount totalN maxLength fuel db pre len,
        minCount ≤ (e.support_count : ℤ) := by
  intro fuel
  induction fuel with
  | zero => intro db pre len e he; cases he
  | succ fuel ih =>
      intro db pre len e he
      rw [mine_recursive] at he
      by_cases hguard : maxLength < len
      · rw [if_pos hguard] at he; cases he
      · rw [if_neg hguard] at he
        obtain ⟨item, _, hcond, hor⟩ := mem_foldr_emit_cond
          (fun item => minCount ≤ (headCount db item : ℤ))
          (fun item => mkPatternInfo (pre ++ [item]) (headCount db item) totalN
            (headConvertedCount db item))
          (fun item => if (project_database db [item]).isEmpty then []
            else mine_recursive minCount totalN maxLength fuel
              (project_database db [item]) (pre ++ [item]) (len + 1))
          (distinctHeads db) e he
        rcases hor with h | h
        · rw [h]; exact hcond
        · by_cases hpe : (project_database db [item]).isEmpty
          · rw [if_pos hpe] at h; cases h
          · rw [if_neg hpe] at h
            exact ih _ _ _ e h

/-- Everything `_prefixspan_mining` emits meets the support threshold
`int(min_support * N)`. -/
theorem prefixspan_emits_only_frequent (seqs : List UserSeq) (ms : ℚ)
    (maxLen : ℕ) :
    ∀ e ∈ prefixspan_mining seqs ms maxLen,
      pyInt (ms * seqs.length) ≤ (e.support_count : ℤ) := by
  intro e he
  rw [prefixspan_mining] at he
  by_cases hseq : seqs.isEmpty
  · rw [if_pos hseq] at he; cases he
  · rw [if_neg hseq] at he
    have he2 := (List.take_sublist 50 _).subset he
    rw [mem_stableSort] at he2
    obtain ⟨item, hitem, hor⟩ := mem_foldr_emit_plain
      (fun item => mkPatternInfo [item] (containsCount seqs item) seqs.length
        (containsConvertedCount seqs item))
      (fun item => if (topProject seqs item).isEmpty then []
        else mine_recursive (pyInt (ms * seqs.length)) seqs.length maxLen
          (maxLen + 1) (topProject seqs item) [item] 2)
      _ e he2
    have hfreq : pyInt (ms * seqs.length) ≤ (containsCount seqs item : ℤ) := by
      have := (List.mem_filter.mp hitem).2
      simpa using this
    rcases hor with h | h
    · rw [h]; exact hfreq
    · by_cases hpe : (topProject seqs item).isEmpty
      · rw [if_pos hpe] at h; cases h
      · rw [if_neg hpe] at h
        exact mine_recursive_support _ _ _ _ _ _ _ e h

/-- Ten users: `A` appears in exactly 6 sequences, `B` in the other 4. -/
def tenUserSeqs : List UserSeq :=
  [⟨.str "u1", [.str "A"], false⟩, ⟨.str "u2", [.str "A"], false⟩,
   ⟨.str "u3", [.str "A"], false⟩, ⟨.str "u4", [.str "A"], false⟩,
   ⟨.str "u5", [.str "A"], false⟩, ⟨.str "u6", [.str "A"], false⟩,
   ⟨.str "u7", [.str "B"], false⟩, ⟨.str "u8", [.str "B"], false⟩,
   ⟨.str "u9", [.str "B"], false⟩, ⟨.str "u10", [.str "B"], false⟩]

/-- Ten users: `A` in exactly 5 sequences, `B` in the other 5. -/
def fiveFiveSeqs : List UserSeq :=
  [⟨.str "u1", [.str "A"], false⟩, ⟨.str "u2", [.str "A"], false⟩,
   ⟨.str "u3", [.str "A"], false⟩, ⟨.str "u4", [.str "A"], false⟩,
   ⟨.str "u5", [.str "A"], false⟩,
   ⟨.str "u6", [.str "B"], false⟩, ⟨.str "u7", [.str "B"], false⟩,
   ⟨.str "u8", [.str "B"], false⟩, ⟨.str "u9", [.str "B"], false⟩,
   ⟨.str "u10", [.str "B"], false⟩]

/-- **C5, counterexample.**  The emission threshold is
`int(min_support * N)` — the *truncation* of `min_support × N` — so with
`min_support = 11/20` and `N = 10` (threshold `int(5.5) = 5`), pattern `[A]`
supported by only 5 sequences is emitted although `5 < 5.5 = min_support×N`,
refuting "only if the number of supporting sequences is at least
min_support × N". -/
theorem support_threshold_counterexample :
    (⟨[.str "A"], 5, 1/2, 1, none, none⟩ : PatternInfo)
      ∈ prefixspan_mining fiveFiveSeqs (11/20) 5 ∧
    ((5 : ℚ) < (11/20) * (fiveFiveSeqs.length : ℚ)) := by
  constructor
  · norm_num +decide [prefixspan_mining, fiveFiveSeqs, allItems, dedupFirst,
      containsCount, containsConvertedCount, topProject, mkPatternInfo,
      pyIndex?, pyInt, pyRound, roundHalfEven, stableSort, insertStable]
  · norm_num [fiveFiveSeqs]

/-- **C5 (amended).**  Frequent-pattern mining emits a pattern only if its
supporting-sequence count is at least `int(min_support × N)` (Python `int`
truncation, which can be one below `min_support × N`); the spec's concrete
examples hold: for the 10 users with `A` in exactly 6 sequences,
`min_support = 0.5` reports exactly pattern `[A]` with `support = 0.6`, and
`min_support = 0.7` reports nothing (exact-rational arithmetic:
`int(0.7·10) = 7 > 6`). -/
theorem support_threshold_amended :
    (∀ (seqs : List UserSeq) (ms : ℚ) (maxLen : ℕ),
      ∀ e ∈ prefixspan_mining seqs ms maxLen,
        pyInt (ms * seqs.length) ≤ (e.support_count : ℤ)) ∧
    prefixspan_mining tenUserSeqs (1/2) 5
      = [⟨[.str "A"], 6, 3/5, 1, none, none⟩] ∧
    prefixspan_mining tenUserSeqs (7/10) 5 = [] := by
  refine ⟨prefixspan_emits_only_frequent, ?_, ?_⟩
  · norm_num +decide [prefixspan_mining, tenUserSeqs, allItems, dedupFirst,
      containsCount, containsConvertedCount, topProject, mkPatternInfo,
      pyIndex?, pyInt, pyRound, roundHalfEven, stableSort, insertStable]
  · norm_num +decide [prefixspan_mining, tenUserSeqs, allItems, dedupFirst,
      containsCount, containsConvertedCount, topProject, mkPatternInfo,
      pyIndex?, pyInt, pyRound, roundHalfEven, stableSort, insertStable]

/-- **C5, witness**: the general bound of the amended theorem applied to the
concrete emitted pattern `[A]` of the 10-user example. -/
theorem support_threshold_witness :
    (⟨[.str "A"], 6, 3/5, 1, none, none⟩ : PatternInfo)
      ∈ prefixspan_mining tenUserSeqs (1/2) 5 ∧
    pyInt ((1/2) * (tenUserSeqs.length : ℚ))
      ≤ (((⟨[.str "A"], 6, 3/5, 1, none, none⟩ : PatternInfo).support_count : ℕ) : ℤ) := by
  have h := support_threshold_amended
  have hmem : (⟨[.str "A"], 6, 3/5, 1, none, none⟩ : PatternInfo)
      ∈ prefixspan_mining tenUserSeqs (1/2) 5 := by
    rw [h.2.1]
    exact List.mem_singleton.mpr rfl
  exact ⟨hmem, h.1 tenUserSeqs (1/2) 5 _ hmem⟩

/-! ## Claim theorems: pattern support semantics (C4) -/

/-- Ordered-subsequence containment (the claim's notion of "containing a
pattern"). -/
def subseqB : List Cell → List Cell → Bool
  | [], _ => true
  | _ :: _, [] => false
  | a :: as, b :: bs => if a = b then subseqB as bs else subseqB (a :: as) bs

/-- Number of sequences containing `pat` as an ordered subsequence. -/
def containmentCount (seqs : List UserSeq) (pat : List Cell) : ℕ :=
  (seqs.filter (fun s => subseqB pat s.events)).length

/-- Number of sequences in which the event *immediately after the first
occurrence* of `a` is `b` — the quantity `_prefixspan_mining` actually
reports as the support of the pattern `[a, b]`. -/
def immediateAfterFirstCount (seqs : List UserSeq) (a b : Cell) : ℕ :=
  (seqs.filter (fun s =>
    match pyIndex? s.events a with
    | some i => decide (s.events.get? (i + 1) = some b)
    | none => false)).length

theorem head?_drop_eq_get? {α : Type} :
    ∀ (l : List α) (n : ℕ), (l.drop n).head? = l.get? n := by
  intro l
  induction l with
  | nil => intro n; cases n <;> rfl
  | cons x xs ih =>
      intro n
      cases n with
      | zero => rfl
      | succ n => simp [ih n]

/-- Patterns emitted by `mine_recursive` strictly extend the prefix. -/
theorem mine_recursive_pattern_extends (mc : ℤ) (N mL : ℕ) :
    ∀ (fuel : ℕ) (db : List UserSeq) (pre : List Cell) (len : ℕ),
      ∀ e ∈ mine_recursive mc N mL fuel db pre len,
        ∃ x xs, e.pattern = pre ++ x :: xs := by
  intro fuel
  induction fuel with
  | zero => intro db pre len e he; cases he
  | succ fuel ih =>
      intro db pre len e he
      rw [mine_recursive] at he
      by_cases hguard : mL < len
      · rw [if_pos hguard] at he; cases he
      · rw [if_neg hguard] at he
        obtain ⟨item, _, _, hor⟩ := mem_foldr_emit_cond
          (fun item => mc ≤ (headCount db item : ℤ))
          (fun item => mkPatternInfo (pre ++ [item]) (headCount db item) N
            (headConvertedCount db item))
          (fun item => if (project_database db [item]).isEmpty then []
            else mine_recursive mc N mL fuel
              (project_database db [item]) (pre ++ [item]) (len + 1))
          (distinctHeads db) e he
        rcases hor with h | h
        · exact ⟨item, [], by rw [h]; rfl⟩
        · by_cases hpe : (project_database db [item]).isEmpty
          · rw [if_pos hpe] at h; cases h
          · rw [if_neg hpe] at h
            obtain ⟨x, xs, hx⟩ := ih _ _ _ e h
            exact ⟨item, x :: xs, by rw [hx, List.append_assoc]; rfl⟩

/-- A pattern emitted with length exactly one more than its prefix was
emitted at the top level of its `mine_recursive` call: it is `pre ++ [item]`
and its `support_count` is the number of database sequences *beginning*
with `item`. -/
theorem mine_recursive_level_pattern (mc : ℤ) (N mL : ℕ) :
    ∀ (fuel : ℕ) (db : List UserSeq) (pre : List Cell) (len : ℕ),
      ∀ e ∈ mine_recursive mc N mL fuel db pre len,
        e.pattern.length = pre.length + 1 →
        ∃ item, e.pattern = pre ++ [item]
          ∧ e.support_count = headCount db item := by
  intro fuel
  induction fuel with
  | zero => intro db pre len e he; cases he
  | succ fuel ih =>
      intro db pre len e he hlen
      rw [mine_recursive] at he
      by_cases hguard : mL < len
      · rw [if_pos hguard] at he; cases he
      · rw [if_neg hguard] at he
        obtain ⟨item, _, _, hor⟩ := mem_foldr_emit_cond
          (fun item => mc ≤ (headCount db item : ℤ))
          (fun item => mkPatternInfo (pre ++ [item]) (headCount db item) N
            (headConvertedCount db item))
          (fun item => if (project_database db [item]).isEmpty then []
            else mine_recursive mc N mL fuel
              (project_database db [item]) (pre ++ [item]) (len + 1))
          (distinctHeads db) e he
        rcases hor with h | h
        · exact ⟨item, by rw [h]; rfl, by rw [h]; rfl⟩
        · by_cases hpe : (project_database db [item]).isEmpty
          · rw [if_pos hpe] at h; cases h
          · rw [if_neg hpe] at h
            obtain ⟨x, xs, hx⟩ := mine_recursive_pattern_extends mc N mL
              fuel _ _ _ e h
            rw [hx] at hlen
            simp at hlen

/-- `suffix_counts` over the top-level projection on `a` counts exactly the
sequences whose first occurrence of `a` is immediately followed by `b`. -/
theorem headCount_topProject (a b : Cell) :
    ∀ seqs : List UserSeq,
      headCount (topProject seqs a) b = immediateAfterFirstCount seqs a b := by
  intro seqs
  induction seqs with
  | nil => rfl
  | cons s ss ih =>
      cases hidx : pyIndex? s.events a with
      | none =>
          simp only [topProject, List.foldr_cons, hidx,
            immediateAfterFirstCount, List.filter_cons]
          rw [show (ss.foldr (fun s acc =>
            match pyIndex? s.events a with
            | some idx =>
                if idx + 1 < s.events.length then
                  { s with events := s.events.drop (idx + 1) } :: acc
                else acc
            | none => acc) []) = topProject ss a from rfl]
          simpa [immediateAfterFirstCount] using ih
      | some idx =>
          by_cases hlt : idx + 1 < s.events.length
          · simp only [topProject, List.foldr_cons, hidx, if_pos hlt,
              headCount, List.filter_cons, head?_drop_eq_get?,
              immediateAfterFirstCount]
            rw [show (ss.foldr (fun s acc =>
              match pyIndex? s.events a with
              | some idx =>
                  if idx + 1 < s.events.length then
                    { s with events := s.events.drop (idx + 1) } :: acc
                  else acc
              | none => acc) []) = topProject ss a from rfl]
            by_cases hb : s.events[idx + 1]? = some b
            · simp only [headCount, immediateAfterFirstCount] at ih
              simp [hb, ih]
            · simp only [headCount, immediateAfterFirstCount] at ih
              simp [hb, ih]
          · have hnone : s.events.get? (idx + 1) = none :=
              List.get?_eq_none.mpr (by omega)
            simp only [topProject, List.foldr_cons, hidx, if_neg hlt,
              immediateAfterFirstCount, List.filter_cons]
            rw [show (ss.foldr (fun s acc =>
              match pyIndex? s.events a with
              | some idx =>
                  if idx + 1 < s.events.length then
                    { s with events := s.events.drop (idx + 1) } :: acc
                  else acc
              | none => acc) []) = topProject ss a from rfl]
            simp only [hnone]
            simpa [immediateAfterFirstCount] using ih

/-- The two-sequence database of the C4 counterexample: `[A, B]` and
`[A, C, B]` — both contain pattern `[A, B]` as an ordered subsequence. -/
def c4seqs : List UserSeq :=
  [⟨.str "u1", [.str "A", .str "B"], false⟩,
   ⟨.str "u2", [.str "A", .str "C", .str "B"], false⟩]

set_option maxHeartbeats 2000000 in
/-- The concrete emitted pattern record shared by the C4 counterexample and
witness: `[A, B]` with `support_count = 1`. -/
theorem c4_pattern_AB_emitted :
    (⟨[.str "A", .str "B"], 1, 1/2, 2, none, none⟩ : PatternInfo)
      ∈ prefixspan_mining c4seqs (1/2) 5 := by
  norm_num +decide [prefixspan_mining, c4seqs, allItems, dedupFirst,
    containsCount, containsConvertedCount, topProject, mkPatternInfo,
    mine_recursive, distinctHeads, headCount, headConvertedCount,
    project_database, firstMatchSuffix, leadsWith,
    pyIndex?, pyInt, pyRound, roundHalfEven, stableSort, insertStable]

/-- **C4, counterexample.**  Pattern `[A, B]` is emitted with
`support_count = 1` (only user u1's sequence begins with `B` after the
projection on `A`), yet 2 sequences contain `[A, B]` as an ordered
subsequence — in u2's sequence `B` occurs after, but not immediately after,
the first `A`, and it does *not* count. -/
theorem pattern_support_containment_counterexample :
    (⟨[.str "A", .str "B"], 1, 1/2, 2, none, none⟩ : PatternInfo)
      ∈ prefixspan_mining c4seqs (1/2) 5 ∧
    containmentCount c4seqs [.str "A", .str "B"] = 2 ∧
    (1 : ℕ) ≠ 2 := by
  refine ⟨c4_pattern_AB_emitted, ?_, by norm_num⟩
  norm_num +decide [containmentCount, c4seqs, subseqB]

/-- **C4 (amended).**  For every emitted pattern of length 2, say `[a, b]`,
the reported `support_count` equals the number of sequences in which the
event *immediately following the first occurrence* of `a` is `b` (the head
count of the database projected on `a`) — not the number of sequences
containing `[a, b]` as an ordered subsequence.  (Longer patterns count
heads of recursively projected databases in the same way.) -/
theorem pattern_support_is_projected_head_count (seqs : List UserSeq)
    (ms : ℚ) (maxLen : ℕ) (e : PatternInfo) (a b : Cell)
    (he : e ∈ prefixspan_mining seqs ms maxLen)
    (hpat : e.pattern = [a, b]) :
    e.support_count = immediateAfterFirstCount seqs a b := by
  rw [prefixspan_mining] at he
  by_cases hseq : seqs.isEmpty
  · rw [if_pos hseq] at he; cases he
  · rw [if_neg hseq] at he
    have he2 := (List.take_sublist 50 _).subset he
    rw [mem_stableSort] at he2
    obtain ⟨item, _, hor⟩ := mem_foldr_emit_plain
      (fun item => mkPatternInfo [item] (containsCount seqs item) seqs.length
        (containsConvertedCount seqs item))
      (fun item => if (topProject seqs item).isEmpty then []
        else mine_recursive (pyInt (ms * seqs.length)) seqs.length maxLen
          (maxLen + 1) (topProject seqs item) [item] 2)
      _ e he2
    rcases hor with h | h
    · exfalso
      have : e.pattern.length = 1 := by rw [h]; rfl
      rw [hpat] at this
      simp at this
    · by_cases hpe : (topProject seqs item).isEmpty
      · rw [if_pos hpe] at h; cases h
      · rw [if_neg hpe] at h
        have hlen2 : e.pattern.length = [item].length + 1 := by
          rw [hpat]; rfl
        obtain ⟨item1, hpp, hsc⟩ := mine_recursive_level_pattern
          (pyInt (ms * seqs.length)) seqs.length maxLen (maxLen + 1)
          (topProject seqs item) [item] 2 e h hlen2
        rw [hpat] at hpp
        have hia : item = a ∧ item1 = b := by
          have : [a, b] = [item, item1] := by simpa using hpp
          simp at this
          exact ⟨this.1.symm, this.2.symm⟩
        rw [hsc, hia.1, hia.2, headCount_topProject]

/-- **C4, witness**: the amended characterization applied to the concrete
emitted pattern `[A, B]` of the counterexample database — its
`support_count` 1 equals the immediate-follower count. -/
theorem pattern_support_is_projected_head_count_witness :
    (⟨[.str "A", .str "B"], 1, 1/2, 2, none, none⟩ : PatternInfo)
      ∈ prefixspan_mining c4seqs (1/2) 5 ∧
    (⟨[.str "A", .str "B"], 1, 1/2, 2, none, none⟩ : PatternInfo).support_count
      = immediateAfterFirstCount c4seqs (.str "A") (.str "B") := by
  exact ⟨c4_pattern_AB_emitted,
    pattern_support_is_projected_head_count c4seqs (1/2) 5 _
      (.str "A") (.str "B") c4_pattern_AB_emitted rfl⟩

/-! ## Claim theorems: missing-column behavior (C8) -/

theorem getCol_not_mem {df : DataFrame} {c : String} (h : c ∉ df.cols) :
    getCol df c = Except.error (.keyError c) := by
  rw [getCol, pyIndex?_eq_none_of_not_mem h]

theorem getCol_mem {df : DataFrame} {c : String} (h : c ∈ df.cols) :
    ∃ l, getCol df c = Except.ok l := by
  obtain ⟨i, hi⟩ := pyIndex?_isSome_of_mem h
  exact ⟨_, by rw [getCol, hi]⟩

/-- A dataframe without the timestamp column. -/
def c8df : DataFrame := ⟨["user", "event"], [[.str "u", .str "A"]]⟩

/-- A dataframe with all three role columns. -/
def c8dfFull : DataFrame :=
  ⟨["user", "event", "ts"], [[.str "u", .str "A", .num 0]]⟩

/-- **C8, counterexample.**  No `MissingColumnError` exists anywhere in the
source: accessing the absent timestamp column makes pandas raise a plain
`KeyError` — the operation fails with the generic pandas error, not with a
`MissingColumnError` carrying the column name. -/
theorem missing_column_error_counterexample :
    funnel_analysis c8df "user" "event" "ts" [.str "A"] none
      = Except.error (.keyError "ts") ∧
    ¬ ∃ c, funnel_analysis c8df "user" "event" "ts" [.str "A"] none
      = Except.error (.missingColumnError c) := by
  have h : funnel_analysis c8df "user" "event" "ts" [.str "A"] none
      = Except.error (.keyError "ts") := by
    have hts : "ts" ∉ c8df.cols := by decide
    simp [funnel_analysis, getCol_not_mem hts, Bind.bind, Except.bind]
  refine ⟨h, ?_⟩
  rintro ⟨c, hc⟩
  rw [h] at hc
  simp at hc

/-- **C8 (amended).**  When a required role column (timestamp, user id, or
event) is absent, `funnel_analysis` fails with a pandas `KeyError` carrying
the name of an absent required column (the first one the source accesses:
timestamp, then user, then event) and produces no result; when all three
are present it returns the full funnel result. -/
theorem missing_column_keyerror_amended (df : DataFrame) (u e t : String)
    (steps : List Cell) (tw : Option ℚ) :
    ((t ∉ df.cols ∨ u ∉ df.cols ∨ e ∉ df.cols) →
      ∃ c, (c = t ∨ c = u ∨ c = e) ∧ c ∉ df.cols ∧
        funnel_analysis df u e t steps tw = Except.error (.keyError c)) ∧
    (t ∈ df.cols → u ∈ df.cols → e ∈ df.cols →
      funnel_analysis df u e t steps tw
        = Except.ok (funnelFromPaths (user_paths_of df u e t) steps tw)) := by
  constructor
  · intro hmiss
    by_cases ht : t ∈ df.cols
    · obtain ⟨lt, hlt⟩ := getCol_mem ht
      by_cases hu : u ∈ df.cols
      · obtain ⟨lu, hlu⟩ := getCol_mem hu
        have he2 : e ∉ df.cols := by tauto
        refine ⟨e, Or.inr (Or.inr rfl), he2, ?_⟩
        simp [funnel_analysis, hlt, hlu, getCol_not_mem he2, Bind.bind,
          Except.bind]
      · refine ⟨u, Or.inr (Or.inl rfl), hu, ?_⟩
        simp [funnel_analysis, hlt, getCol_not_mem hu, Bind.bind, Except.bind]
    · refine ⟨t, Or.inl rfl, ht, ?_⟩
      simp [funnel_analysis, getCol_not_mem ht, Bind.bind, Except.bind]
  · intro ht hu he2
    obtain ⟨lt, hlt⟩ := getCol_mem ht
    obtain ⟨lu, hlu⟩ := getCol_mem hu
    obtain ⟨le, hle⟩ := getCol_mem he2
    simp [funnel_analysis, hlt, hlu, hle, Bind.bind, Except.bind, pure,
      Except.pure]

/-- **C8, witness**: the amended theorem at the two concrete dataframes —
with `"ts"` absent the result is the pandas `KeyError`; with all columns
present the full funnel result is produced. -/
theorem missing_column_keyerror_witness :
    (∃ c, (c = "ts" ∨ c = "user" ∨ c = "event") ∧ c ∉ c8df.cols ∧
      funnel_analysis c8df "user" "event" "ts" [.str "A"] none
        = Except.error (.keyError c)) ∧
    funnel_analysis c8dfFull "user" "event" "ts" [.str "A"] none
      = Except.ok (funnelFromPaths
          (user_paths_of c8dfFull "user" "event" "ts") [.str "A"] none) :=
  ⟨(missing_column_keyerror_amended c8df "user" "event" "ts" [.str "A"]
      none).1 (Or.inl (by decide)),
   (missing_column_keyerror_amended c8dfFull "user" "event" "ts" [.str "A"]
      none).2 (by decide) (by decide) (by decide)⟩

end InsightEase
